import Mathlib

/-!
Shallow embedding of the Caption-to-Narration conversion engine
(`convert_narration_script` in `src/c_to_n_withGEMINI.py`) and the
claims of the specification about it.

Strings are modelled as `List Char`.  Python's Unicode character classes
(`\d`, `\s`, `str.strip`, `str.upper`) are modelled by predicates covering
the character repertoire this program manipulates (ASCII plus the
full-width Japanese forms appearing in its translation tables); the
program's own translation tables are embedded verbatim as pair lists
mirroring `str.maketrans`.  Python floats (used only in the
connection-threshold comparison) are modelled exactly by rounding
rationals to the nearest IEEE-754 binary64 value (ties to even); all
values reachable there are in the normal range, so this model is exact.
-/

namespace CtoN

/-! ## Character classes -/

/-- Python's `\d` (Unicode decimal digit), restricted to the ASCII and
full-width digits — the only decimal digits this program's inputs and
tables contain. -/
def isPyDigit (c : Char) : Bool :=
  (48 ≤ c.toNat && c.toNat ≤ 57) || (0xFF10 ≤ c.toNat && c.toNat ≤ 0xFF19)

/-- Numeric value of a decimal digit character (as Python's `int` reads it). -/
def pyDigitVal (c : Char) : Nat :=
  if 48 ≤ c.toNat && c.toNat ≤ 57 then c.toNat - 48
  else if 0xFF10 ≤ c.toNat && c.toNat ≤ 0xFF19 then c.toNat - 0xFF10
  else 0

/-- Python's whitespace class (shared by `\s`, `str.strip()` and
`str.isspace()`): ASCII whitespace and control separators plus the
Unicode space separators, notably the ideographic space U+3000. -/
def isPySpace (c : Char) : Bool :=
  (9 ≤ c.toNat && c.toNat ≤ 13) ||
  c.toNat = 32 ||
  (28 ≤ c.toNat && c.toNat ≤ 31) ||
  c.toNat = 0x85 || c.toNat = 0xA0 || c.toNat = 0x1680 ||
  (0x2000 ≤ c.toNat && c.toNat ≤ 0x200A) ||
  c.toNat = 0x2028 || c.toNat = 0x2029 ||
  c.toNat = 0x202F || c.toNat = 0x205F || c.toNat = 0x3000

/-- `str.strip()`: drop Python whitespace from both ends. -/
def pyStrip (l : List Char) : List Char :=
  ((l.dropWhile isPySpace).reverse.dropWhile isPySpace).reverse

/-- `str.split('\n')`: split on every newline, keeping empty pieces. -/
def splitLines (l : List Char) : List (List Char) :=
  l.foldr
    (fun c acc =>
      match acc with
      | h :: t => if c = '\n' then [] :: h :: t else (c :: h) :: t
      | [] => [[c]])
    [[]]

/-- Python `str.upper`, restricted to the ASCII and full-width Latin
letters (the only cased characters relevant to the `== 'N'` comparisons). -/
def pyUpperChar (c : Char) : Char :=
  if 97 ≤ c.toNat && c.toNat ≤ 122 then Char.ofNat (c.toNat - 32)
  else if 0xFF41 ≤ c.toNat && c.toNat ≤ 0xFF5A then Char.ofNat (c.toNat - 32)
  else c

/-! ## Translation tables (`str.maketrans` / `str.translate`) -/

/-- Apply a `maketrans`-style table: translate a character through the
first matching pair, else leave it unchanged. -/
def applyTable (t : List (Char × Char)) (c : Char) : Char :=
  ((t.find? (fun p => p.1 = c)).map (fun p => p.2)).getD c

/-- `to_hankaku_time = str.maketrans('０１２３４５６７８９：〜', '0123456789:~')`. -/
def toHankakuTimePairs : List (Char × Char) :=
  [('０', '0'), ('１', '1'), ('２', '2'), ('３', '3'), ('４', '4'),
   ('５', '5'), ('６', '6'), ('７', '7'), ('８', '8'), ('９', '9'),
   ('：', ':'), ('〜', '~')]

def toHankakuTimeChar (c : Char) : Char := applyTable toHankakuTimePairs c

/-- `to_zenkaku_num = str.maketrans('0123456789', '０１２３４５６７８９')`. -/
def toZenkakuNumPairs : List (Char × Char) :=
  [('0', '０'), ('1', '１'), ('2', '２'), ('3', '３'), ('4', '４'),
   ('5', '５'), ('6', '６'), ('7', '７'), ('8', '８'), ('9', '９')]

def toZenkakuNumChar (c : Char) : Char := applyTable toZenkakuNumPairs c

/-- `to_zenkaku_all = str.maketrans(hankaku_chars, zenkaku_chars)` where
`hankaku_chars = 'a..zA..Z0..9 ' + '!@#$%&-+='` and `zenkaku_chars` are the
corresponding full-width forms. -/
def toZenkakuAllPairs : List (Char × Char) :=
  [('a', 'ａ'), ('b', 'ｂ'), ('c', 'ｃ'), ('d', 'ｄ'), ('e', 'ｅ'),
   ('f', 'ｆ'), ('g', 'ｇ'), ('h', 'ｈ'), ('i', 'ｉ'), ('j', 'ｊ'),
   ('k', 'ｋ'), ('l', 'ｌ'), ('m', 'ｍ'), ('n', 'ｎ'), ('o', 'ｏ'),
   ('p', 'ｐ'), ('q', 'ｑ'), ('r', 'ｒ'), ('s', 'ｓ'), ('t', 'ｔ'),
   ('u', 'ｕ'), ('v', 'ｖ'), ('w', 'ｗ'), ('x', 'ｘ'), ('y', 'ｙ'),
   ('z', 'ｚ'),
   ('A', 'Ａ'), ('B', 'Ｂ'), ('C', 'Ｃ'), ('D', 'Ｄ'), ('E', 'Ｅ'),
   ('F', 'Ｆ'), ('G', 'Ｇ'), ('H', 'Ｈ'), ('I', 'Ｉ'), ('J', 'Ｊ'),
   ('K', 'Ｋ'), ('L', 'Ｌ'), ('M', 'Ｍ'), ('N', 'Ｎ'), ('O', 'Ｏ'),
   ('P', 'Ｐ'), ('Q', 'Ｑ'), ('R', 'Ｒ'), ('S', 'Ｓ'), ('T', 'Ｔ'),
   ('U', 'Ｕ'), ('V', 'Ｖ'), ('W', 'Ｗ'), ('X', 'Ｘ'), ('Y', 'Ｙ'),
   ('Z', 'Ｚ'),
   ('0', '０'), ('1', '１'), ('2', '２'), ('3', '３'), ('4', '４'),
   ('5', '５'), ('6', '６'), ('7', '７'), ('8', '８'), ('9', '９'),
   (' ', '　'),
   ('!', '！'), ('@', '＠'), ('#', '＃'), ('$', '＄'), ('%', '％'),
   ('&', '＆'), ('-', '－'), ('+', '＋'), ('=', '＝')]

def toZenkakuAllChar (c : Char) : Char := applyTable toZenkakuAllPairs c

/-- `.replace('~', '-')` (single-character replacement). -/
def tildeToDash (c : Char) : Char := if c = '~' then '-' else c

/-! ## Frame synthesis: `re.sub(r'(\d{2}:\d{2}:\d{2})(?![:.]\d{2})', r'\1.00', line)` -/

/-- Is position `i` of `l` a decimal digit? -/
def digitAt (l : List Char) (i : Nat) : Bool :=
  (l[i]?.map isPyDigit).getD false

/-- Is position `i` of `l` a half-width colon? -/
def colonAt (l : List Char) (i : Nat) : Bool :=
  l[i]? = some ':'

/-- Does `l` begin with `\d{2}:\d{2}:\d{2}` (the sub pattern's group)? -/
def isHMS (l : List Char) : Bool :=
  digitAt l 0 && digitAt l 1 && colonAt l 2 && digitAt l 3 && digitAt l 4 &&
  colonAt l 5 && digitAt l 6 && digitAt l 7

/-- Does `l` begin with `[:.]\d{2}` (the negative lookahead's pattern)? -/
def lookFrame (l : List Char) : Bool :=
  (l[0]? = some ':' || l[0]? = some '.') && digitAt l 1 && digitAt l 2

/-- One fuelled pass of the regex substitution: at each position, if the
group matches and the lookahead's pattern does not follow, emit the eight
matched characters followed by `.00` and resume after the match; otherwise
copy one character and advance.  The fuel only needs to cover the number
of scan steps, which is at most the length of the list. -/
def frameSubAux : Nat → List Char → List Char
  | 0, l => l
  | _ + 1, [] => []
  | fuel + 1, c :: cs =>
    if isHMS (c :: cs) && !lookFrame ((c :: cs).drop 8) then
      (c :: cs).take 8 ++ ('.' :: '0' :: '0' :: []) ++ frameSubAux fuel ((c :: cs).drop 8)
    else
      c :: frameSubAux fuel cs

def frameSub (l : List Char) : List Char := frameSubAux l.length l

/-! ## Timecode pattern
`(\d{2})[:;](\d{2})[:;](\d{2})[;.](\d{2})\s*-\s*(\d{2})[:;](\d{2})[:;](\d{2})[;.](\d{2})`
tested with `re.match` (anchored at the start, prefix match suffices). -/

structure TimeFields where
  sHH : Nat
  sMM : Nat
  sSS : Nat
  sFR : Nat
  eHH : Nat
  eMM : Nat
  eSS : Nat
  eFR : Nat
deriving DecidableEq, Repr

/-- Read a `\d{2}` group, returning its `int` value and the rest. -/
def readDD : List Char → Option (Nat × List Char)
  | c1 :: c2 :: r =>
    if isPyDigit c1 && isPyDigit c2 then some (10 * pyDigitVal c1 + pyDigitVal c2, r)
    else none
  | _ => none

/-- Read one character from the given separator class. -/
def readSep (seps : List Char) : List Char → Option (List Char)
  | c :: r => if c ∈ seps then some r else none
  | [] => none

def timeMatch (l : List Char) : Option TimeFields :=
  match readDD l with
  | none => none
  | some (a, r) =>
  match readSep [':', ';'] r with
  | none => none
  | some r =>
  match readDD r with
  | none => none
  | some (b, r) =>
  match readSep [':', ';'] r with
  | none => none
  | some r =>
  match readDD r with
  | none => none
  | some (c, r) =>
  match readSep [';', '.'] r with
  | none => none
  | some r =>
  match readDD r with
  | none => none
  | some (d, r) =>
  match readSep ['-'] (r.dropWhile isPySpace) with
  | none => none
  | some r =>
  match readDD (r.dropWhile isPySpace) with
  | none => none
  | some (e, r) =>
  match readSep [':', ';'] r with
  | none => none
  | some r =>
  match readDD r with
  | none => none
  | some (f, r) =>
  match readSep [':', ';'] r with
  | none => none
  | some r =>
  match readDD r with
  | none => none
  | some (g, r) =>
  match readSep [';', '.'] r with
  | none => none
  | some r =>
  match readDD r with
  | none => none
  | some (h, _) => some ⟨a, b, c, d, e, f, g, h⟩

/-! ## Line normalization, scanner, block assembly, parsing -/

/-- `.translate(to_hankaku_time).replace('~', '-')` as one character map. -/
def normChar (c : Char) : Char := tildeToDash (toHankakuTimeChar c)

/-- The scanner's normalization of a raw line (source lines 391–392):
frame synthesis, then `strip`, then width/dash normalization. -/
def scannerNormalize (l : List Char) : List Char :=
  (pyStrip (frameSub l)).map normChar

/-- The assembler's and parser's normalization of an already-stripped
label (source lines 406–407, 414, 426–427): frame synthesis then
width/dash normalization, with no further strip. -/
def labelNormalize (l : List Char) : List Char :=
  (frameSub l).map normChar

/-- Does a raw input line match the timecode pattern after the scanner's
normalization? -/
def scannerMatches (l : List Char) : Bool :=
  (timeMatch (scannerNormalize l)).isSome

/-- Block assembly (source lines 402–419), fuelled: pair each matching
(stripped) time line with at most one following non-matching (stripped)
body line.  Each step consumes at least one line, so fuel equal to the
number of lines suffices. -/
def assembleAux : Nat → List (List Char) → List (List Char × List Char)
  | 0, _ => []
  | _ + 1, [] => []
  | fuel + 1, l :: rest =>
    let cur := pyStrip l
    if (timeMatch (labelNormalize cur)).isSome then
      match rest with
      | [] => [(cur, [])]
      | nxt :: rest2 =>
        let nv := pyStrip nxt
        if (timeMatch (labelNormalize nv)).isSome then
          (cur, []) :: assembleAux fuel rest
        else
          (cur, nv) :: assembleAux fuel rest2
    else
      assembleAux fuel rest

def assemble (ls : List (List Char)) : List (List Char × List Char) :=
  assembleAux ls.length ls

structure ParsedBlock where
  startHH : Nat
  startMM : Nat
  startSS : Nat
  startFR : Nat
  endHH : Nat
  endMM : Nat
  endSS : Nat
  endFR : Nat
  text : List Char
deriving DecidableEq, Repr

/-- Timecode parsing (source lines 425–444): re-normalize each block's
time label, extract the eight integer groups, keep the body; blocks whose
label fails to match are dropped. -/
def parseBlocks (bs : List (List Char × List Char)) : List ParsedBlock :=
  bs.filterMap fun b =>
    (timeMatch (labelNormalize b.1)).map fun t =>
      ⟨t.sHH, t.sMM, t.sSS, t.sFR, t.eHH, t.eMM, t.eSS, t.eFR, b.2⟩

/-- The auxiliary AI payload (source lines 435–438): the stripped label
and stripped body of each successfully parsed block. -/
def aiData (bs : List (List Char × List Char)) : List (List Char × List Char) :=
  bs.filterMap fun b =>
    if (timeMatch (labelNormalize b.1)).isSome then some (pyStrip b.1, pyStrip b.2)
    else none

/-! ## Exact model of the Python float arithmetic

The only floating-point computation in the engine is the connection
threshold comparison (source lines 373–374, 546–548).  We model IEEE-754
binary64 exactly: `fl q` is the rational value of the double nearest to
`q` (ties to even).  All values reachable in this program are zero or of
magnitude between `2 ^ (-60)` and `2 ^ 19`, well inside the normal range,
so exponent-range effects (subnormals, overflow) cannot occur and this
model is exact. -/

/-- Rational addition, subtraction and multiplication written through
`Rat.divInt` (value-equal to the field operations; stated this way so the
kernel can evaluate them on literals). -/
def qAdd (a b : ℚ) : ℚ := Rat.divInt (a.num * b.den + b.num * a.den) (a.den * b.den)

def qSub (a b : ℚ) : ℚ := Rat.divInt (a.num * b.den - b.num * a.den) (a.den * b.den)

def qMul (a b : ℚ) : ℚ := Rat.divInt (a.num * b.num) (a.den * b.den)

/-- Round a rational to an integer, ties to even. -/
def roundHalfEven (q : ℚ) : Int :=
  let f := ⌊q⌋
  let r := qSub q (Rat.ofInt f)
  if r < Rat.divInt 1 2 then f
  else if Rat.divInt 1 2 < r then f + 1
  else if f % 2 = 0 then f else f + 1

/-- Largest `e` with `2 ^ e ≤ x`, for `1 ≤ x` (fuelled, structural — the
kernel can evaluate it on literals). -/
def log2Floor : Nat → ℚ → Nat
  | 0, _ => 0
  | f + 1, x =>
    if x < Rat.ofInt 2 then 0 else log2Floor f (Rat.divInt x.num (2 * x.den)) + 1

/-- Smallest `m` with `x ≤ 2 ^ m`, for `1 ≤ x` (fuelled, structural). -/
def log2Ceil : Nat → ℚ → Nat
  | 0, _ => 0
  | f + 1, x =>
    if x ≤ Rat.ofInt 1 then 0 else log2Ceil f (Rat.divInt x.num (2 * x.den)) + 1

/-- The binary exponent `⌊logb 2 q⌋` of a positive rational. -/
def ratExp (q : ℚ) : Int :=
  if Rat.ofInt 1 ≤ q then (log2Floor (q.num.natAbs + q.den) q : Int)
  else -(log2Ceil (q.num.natAbs + q.den) (Rat.divInt q.den q.num) : Int)

/-- Nearest binary64 value of a positive rational (assuming the normal
range, which covers every value reachable in this program). -/
def flPos (q : ℚ) : ℚ :=
  let s : Nat := (52 - ratExp q).toNat
  Rat.divInt (roundHalfEven (qMul q (Rat.ofInt (2 ^ s)))) (2 ^ s)

/-- Nearest binary64 value of a rational (normal range). -/
def fl (q : ℚ) : ℚ :=
  if q.num = 0 then 0
  else if q.num < 0 then Rat.neg (flPos (Rat.neg q))
  else flPos q

/-- `FRAME_RATE = 30.0`; a frame count divided by the frame rate,
as the float `fr / 30.0`. -/
def floatDiv30 (fr : Nat) : ℚ := fl (Rat.divInt fr 30)

/-- `(hh * 3600) + (mm * 60) + ss + (fr / FRAME_RATE)` as Python computes
it: the first three terms are exact integers, the final addition is one
float operation. -/
def floatTotalSeconds (hh mm ss fr : Nat) : ℚ :=
  fl (qAdd (Rat.ofInt (hh * 3600 + mm * 60 + ss)) (floatDiv30 fr))

/-- `CONNECTION_THRESHOLD = 1.0 + (10.0 / FRAME_RATE)`. -/
def connectionThreshold : ℚ := fl (qAdd (Rat.ofInt 1) (fl (Rat.divInt 10 30)))

/-! ## Display formatter (source lines 446–575) -/

def endTotalSecondsF (b : ParsedBlock) : ℚ :=
  floatTotalSeconds b.endHH b.endMM b.endSS b.endFR

def startTotalSecondsF (b : ParsedBlock) : ℚ :=
  floatTotalSeconds b.startHH b.startMM b.startSS b.startFR

/-- The exact (ideal-arithmetic) end instant of a block in seconds, as
the specification describes it: `hour*3600 + minute*60 + second + frame/30`. -/
def endInstantQ (b : ParsedBlock) : ℚ :=
  b.endHH * 3600 + b.endMM * 60 + b.endSS + (b.endFR : ℚ) / 30

/-- The exact (ideal-arithmetic) start instant of a block in seconds. -/
def startInstantQ (b : ParsedBlock) : ℚ :=
  b.startHH * 3600 + b.startMM * 60 + b.startSS + (b.startFR : ℚ) / 30

/-- Source lines 542–549: the trailing blank line / end-suffix switch.
`True` unless a next block exists and starts less than
`CONNECTION_THRESHOLD` (float-compared) after this block's end. -/
def addBlankLine (b : ParsedBlock) : Option ParsedBlock → Bool
  | none => true
  | some nb =>
    !(decide (fl (qSub (startTotalSecondsF nb) (endTotalSecondsF b)) < connectionThreshold))

/-- Hour-marker decision (source lines 450–464): which hour, if any, to
display before block `i` given the previous block's end hour. -/
def markerFor (i : Nat) (prev : Nat) (b : ParsedBlock) : Option Nat :=
  if i = 0 then
    if b.startHH > 0 then some b.startHH else none
  else if b.startHH < b.endHH then some b.endHH
  else if b.startHH > prev then some b.startHH
  else none

/-- `f"【{str(h).translate(to_zenkaku_num)}Ｈ】"` (source line 468). -/
def hourMarkerLine (h : Nat) : List Char :=
  '【' :: ((Nat.repr h).data.map toZenkakuNumChar) ++ ('Ｈ' :: '】' :: [])

/-- `f"{n:02d}"` for a natural number. -/
def pad2 (n : Nat) : List Char :=
  let s := (Nat.repr n).data
  if s.length < 2 then '0' :: s else s

/-- `f"{n:02d}"` for a Python int (width 2 including any sign, exactly as
Python pads). -/
def pad2I (n : Int) : List Char :=
  let s := (toString n).data
  if s.length < 2 then '0' :: s else s

/-- Shared tail of the start-time rendering (source lines 497–507):
optional colon insertion, full-width digits, optional `半`. -/
def finishStartTime (baseTimeStr : List Char) (mmColon isHalf : Bool) : List Char :=
  let colonTimeStr :=
    if mmColon then baseTimeStr.take 2 ++ ('：' :: baseTimeStr.drop 2)
    else baseTimeStr
  let z := colonTimeStr.map toZenkakuNumChar
  if isHalf then z ++ ['半'] else z

/-- Start-time display (source lines 473–507): returns the rendered
start-time label and the spacer. -/
def startTimeParts (b : ParsedBlock) (mmColon : Bool) : List Char × List Char :=
  let totalSecondsInMinuteLoop := (b.startMM % 60) * 60 + b.startSS
  if b.startFR ≤ 9 then
    let displayMM := (totalSecondsInMinuteLoop / 60) % 60
    let displaySS := totalSecondsInMinuteLoop % 60
    (finishStartTime (pad2 displayMM ++ pad2 displaySS) mmColon false, ['　', '　', '　'])
  else if 10 ≤ b.startFR && b.startFR ≤ 22 then
    let displayMM := (totalSecondsInMinuteLoop / 60) % 60
    let displaySS := totalSecondsInMinuteLoop % 60
    (finishStartTime (pad2 displayMM ++ pad2 displaySS) mmColon true, ['　', '　'])
  else
    let t := totalSecondsInMinuteLoop + 1
    let displayMM := (t / 60) % 60
    let displaySS := t % 60
    (finishStartTime (pad2 displayMM ++ pad2 displaySS) mmColon false, ['　', '　', '　'])

/-- `"※注意！本文なし！"` — the body-missing placeholder. -/
def missingBody : List Char := "※注意！本文なし！".data

/-- `re.match(r'^(\S+)\s+(.*)', text_content)`: a leading non-whitespace
token, at least one whitespace character, then the rest of the line (`.`
stops at a newline, though block bodies never contain one). -/
def speakerMatch (t : List Char) : Option (List Char × List Char) :=
  let tok := t.takeWhile (fun c => !isPySpace c)
  if tok.isEmpty then none
  else
    let r := t.drop tok.length
    let ws := r.takeWhile isPySpace
    if ws.isEmpty then none
    else some (tok, (r.drop ws.length).takeWhile (fun c => c ≠ '\n'))

/-- Speaker/body extraction (source lines 509–537): returns the speaker
symbol and the body before full-width conversion. -/
def speakerBody (nForce : Bool) (textContent : List Char) : List Char × List Char :=
  if nForce then
    let (speakerSymbol, body) :=
      match speakerMatch textContent with
      | some (rawSpeaker, rest) =>
        let body := pyStrip rest
        if rawSpeaker.map pyUpperChar = ['N'] then (['Ｎ'], body)
        else (rawSpeaker.map toZenkakuAllChar, body)
      | none =>
        if textContent.map pyUpperChar = ['N'] || textContent = ['Ｎ'] then (['Ｎ'], [])
        else if textContent.take 2 = ['Ｎ', ' '] then (['Ｎ'], pyStrip (textContent.drop 2))
        else if textContent.take 2 = ['N', ' '] then (['Ｎ'], pyStrip (textContent.drop 2))
        else (['Ｎ'], textContent)
    (speakerSymbol, if body.isEmpty then missingBody else body)
  else
    ([], if (pyStrip textContent).isEmpty then missingBody else textContent)

/-- End-time suffix `" (～…)"` (source lines 551–567), as rendered when
the block is not connected to its successor. -/
def endSuffix (b : ParsedBlock) : List Char :=
  let adjSS0 : Int := if b.endFR ≤ 9 then (b.endSS : Int) - 1 else (b.endSS : Int)
  let adjMM : Int := if adjSS0 < 0 then (b.endMM : Int) - 1 else (b.endMM : Int)
  let adjSS : Int := if adjSS0 < 0 then 59 else adjSS0
  let adjMMDisplay : Int := adjMM % 60
  let formattedEndTime :=
    if b.startHH != b.endHH || ((b.startMM : Int) % 60) != adjMMDisplay then
      (pad2I adjMMDisplay ++ pad2I adjSS).map toZenkakuNumChar
    else
      (pad2I adjSS).map toZenkakuNumChar
  ' ' :: '(' :: '～' :: formattedEndTime ++ [')']

/-- The block's end-time string: the suffix when `add_blank_line` is set,
empty otherwise (source lines 541, 551–567). -/
def endStringOf (b : ParsedBlock) (next? : Option ParsedBlock) : List Char :=
  if addBlankLine b next? then endSuffix b else []

/-- Is a trailing blank line emitted after this block
(source lines 574–575: `add_blank_line and i < len(parsed_blocks) - 1`)? -/
def trailingBlank (b : ParsedBlock) (next? : Option ParsedBlock) : Bool :=
  addBlankLine b next? && next?.isSome

/-- Rendering of one block (one iteration of the loop at source lines
446–575): hour-marker lines, the main line, and the optional trailing
blank line. -/
def renderBlock (nForce mmColon : Bool) (i prev : Nat) (b : ParsedBlock)
    (next? : Option ParsedBlock) : List String :=
  let markerLines :=
    match markerFor i prev b with
    | some h => ["", String.mk (hourMarkerLine h)]
    | none => []
  let sp := startTimeParts b mmColon
  let sb := speakerBody nForce b.text
  let body := sb.2.map toZenkakuAllChar
  let mainLine :=
    if nForce then sp.1 ++ sp.2 ++ sb.1 ++ ('　' :: body) ++ endStringOf b next?
    else sp.1 ++ sp.2 ++ body ++ endStringOf b next?
  markerLines ++ [String.mk mainLine] ++ (if trailingBlank b next? then [""] else [])

/-- The formatter loop: index `i` and `previous_end_hh` are threaded; the
state is set to the block's end hour after every step (source line 471). -/
def renderBlocks (nForce mmColon : Bool) : Nat → Nat → List ParsedBlock → List String
  | _, _, [] => []
  | i, prev, b :: rest =>
    renderBlock nForce mmColon i prev b rest.head? ++
      renderBlocks nForce mmColon (i + 1) b.endHH rest

/-! ## The engine -/

inductive ConvertResult where
  | error (msg : String)
  | ok (narrationScript : List String) (reviewPayload : List (List Char × List Char))
deriving DecidableEq

/-- The `NoTimecodeFound` message (source line 398). -/
def noTimecodeMsg : String :=
  "エラー：変換可能なタイムコード（フレーム情報を含む形式）が見つかりませんでした。"

/-- `convert_narration_script(text, n_force_insert_flag, mm_ss_colon_flag)`
(source lines 372–577).  The script is kept as its list of output lines
(the source joins them with newlines on return). -/
def convertNarrationScript (text : String) (nForce mmColon : Bool) : ConvertResult :=
  let lines := splitLines (pyStrip text.data)
  match lines.findIdx? scannerMatches with
  | none => .error noTimecodeMsg
  | some startIndex =>
    let relevantLines := lines.drop startIndex
    let blocks := assemble relevantLines
    let parsed := parseBlocks blocks
    .ok (renderBlocks nForce mmColon 0 0 parsed) (aiData blocks)

/-! ## Specification-side definitions (for refinement claims)

These are written from the specification's words, to be compared with the
definitions above, which were translated from the source. -/

/-- Modelled from the spec (§4.5 start-time display): from the (possibly
adjusted) `totalSeconds` derive `mm = (totalSeconds // 60) mod 60` and
`ss = totalSeconds mod 60`, zero-padded to two digits, rendered as `mmss`
or (with the colon-display option) `mm：ss`, converted to full-width
digits, with `半` appended when the half-flag is set. -/
def specStartRender (totalSeconds : Nat) (colon half : Bool) : List Char :=
  let mm := pad2 ((totalSeconds / 60) % 60)
  let ss := pad2 (totalSeconds % 60)
  let base := if colon then mm ++ ('：' :: ss) else mm ++ ss
  let z := base.map toZenkakuNumChar
  if half then z ++ ['半'] else z

/-- Modelled from the spec (§4.5 end-time adjustment): if `endFrame` is in
0–9 decrement the display second by one, borrowing a minute (wrap 0→59,
decrement minute) on underflow; normalize the minute modulo 60.  Returns
`(displayMinute, displaySecond)`. -/
def specEndAdjusted (endMM endSS endFR : Nat) : Int × Int :=
  let s : Int := if endFR ≤ 9 then (endSS : Int) - 1 else (endSS : Int)
  if s < 0 then (((endMM : Int) - 1) % 60, 59) else ((endMM : Int) % 60, s)

/-! ## Canonical timecode-line forms (for the scanner-acceptance claims) -/

/-- A frame-exact timecode-range line `HH;MM;SS;FF - HH;MM;SS;FF` built
from eight two-digit field values. -/
def mkFrameExact (a b c d e f g h : Nat) : List Char :=
  pad2 a ++ ';' :: pad2 b ++ ';' :: pad2 c ++ ';' :: pad2 d ++
    (' ' :: '-' :: ' ' :: pad2 e) ++ ';' :: pad2 f ++ ';' :: pad2 g ++ ';' :: pad2 h

/-- A decimal-digit character in the chosen width: full-width when `fw`,
half-width (ASCII) otherwise. -/
def widthDigit (fw : Bool) (k : Nat) : Char :=
  if fw then Char.ofNat (0xFF10 + k) else Char.ofNat (48 + k)

/-- A two-digit field in the chosen width. -/
def widthPad2 (fw : Bool) (n : Nat) : List Char :=
  [widthDigit fw (n / 10), widthDigit fw (n % 10)]

/-- An `HH:MM:SS` triple (half-width colons, digits in the chosen width). -/
def mkHMS (fw : Bool) (a b c : Nat) : List Char :=
  widthPad2 fw a ++ ':' :: widthPad2 fw b ++ ':' :: widthPad2 fw c

/-- A seconds-only timecode-range line: two `HH:MM:SS` triples in the
chosen digit width, joined by optional whitespace runs around a `~`, `-`
or `〜` separator. -/
def mkSecondsOnly (fw : Bool) (a b c d e f : Nat) (w1 w2 : List Char)
    (sep : Char) : List Char :=
  mkHMS fw a b c ++ w1 ++ sep :: w2 ++ mkHMS fw d e f

/-- The (amended) accepted textual forms of claim C1: a line that is
exactly a frame-exact semicolon-delimited range, or a seconds-only range
with half-width colons, digits in either width, and a `~`/`-`/`〜`
separator surrounded by optional whitespace. -/
def acceptedForm (l : List Char) : Prop :=
  (∃ a b c d e f g h, a < 100 ∧ b < 100 ∧ c < 100 ∧ d < 100 ∧
      e < 100 ∧ f < 100 ∧ g < 100 ∧ h < 100 ∧ l = mkFrameExact a b c d e f g h) ∨
  (∃ fw a b c d e f w1 w2 sep, a < 100 ∧ b < 100 ∧ c < 100 ∧ d < 100 ∧
      e < 100 ∧ f < 100 ∧
      (∀ ch ∈ w1, isPySpace ch = true) ∧ (∀ ch ∈ w2, isPySpace ch = true) ∧
      (sep = '~' ∨ sep = '-' ∨ sep = '〜') ∧
      l = mkSecondsOnly fw a b c d e f w1 w2 sep)

/-! # Theorems -/

/-! ## Elementary character facts -/

theorem char_ne_of_toNat_ne {c d : Char} (h : c.toNat ≠ d.toNat) : c ≠ d :=
  fun e => h (e ▸ rfl)

theorem space_not_digit {c : Char} (h : isPySpace c = true) : isPyDigit c = false := by
  simp only [isPySpace, Bool.or_eq_true, Bool.and_eq_true, decide_eq_true_eq] at h
  simp only [isPyDigit, Bool.or_eq_true, Bool.and_eq_true, decide_eq_true_eq,
    Bool.or_eq_false_iff, Bool.and_eq_false_iff, decide_eq_false_iff_not, not_le]
  omega

theorem space_ne_colon {c : Char} (h : isPySpace c = true) : c ≠ ':' := by
  apply char_ne_of_toNat_ne
  simp only [isPySpace, Bool.or_eq_true, Bool.and_eq_true, decide_eq_true_eq] at h
  show c.toNat ≠ 58
  omega

theorem space_ne_dot {c : Char} (h : isPySpace c = true) : c ≠ '.' := by
  apply char_ne_of_toNat_ne
  simp only [isPySpace, Bool.or_eq_true, Bool.and_eq_true, decide_eq_true_eq] at h
  show c.toNat ≠ 46
  omega

/-! ## Fuel elimination for the regex substitution -/

theorem frameSubAux_congr : ∀ (f g : Nat) (l : List Char),
    l.length ≤ f → l.length ≤ g → frameSubAux f l = frameSubAux g l := by
  intro f
  induction f with
  | zero =>
    intro g l hf _
    have : l = [] := List.length_eq_zero.mp (Nat.le_zero.mp hf)
    subst this
    cases g <;> rfl
  | succ f ih =>
    intro g l hf hg
    cases l with
    | nil => cases g <;> rfl
    | cons c cs =>
      cases g with
      | zero => simp at hg
      | succ g =>
        simp only [frameSubAux]
        split
        · rw [ih g ((c :: cs).drop 8)
            (by simp only [List.length_drop, List.length_cons] at *; omega)
            (by simp only [List.length_drop, List.length_cons] at *; omega)]
        · rw [ih g cs
            (by simp only [List.length_cons] at hf; omega)
            (by simp only [List.length_cons] at hg; omega)]

theorem frameSub_cons_pos {c : Char} {cs : List Char}
    (h : (isHMS (c :: cs) && !lookFrame ((c :: cs).drop 8)) = true) :
    frameSub (c :: cs) =
      (c :: cs).take 8 ++ ('.' :: '0' :: '0' :: []) ++ frameSub ((c :: cs).drop 8) := by
  show frameSubAux (c :: cs).length (c :: cs) = _
  rw [List.length_cons]
  simp only [frameSubAux, h, if_true]
  rw [frameSubAux_congr cs.length ((c :: cs).drop 8).length ((c :: cs).drop 8)
    (by simp only [List.length_drop, List.length_cons]; omega) (Nat.le_refl _)]
  rfl

theorem frameSub_cons_neg {c : Char} {cs : List Char}
    (h : (isHMS (c :: cs) && !lookFrame ((c :: cs).drop 8)) = false) :
    frameSub (c :: cs) = c :: frameSub cs := by
  show frameSubAux (c :: cs).length (c :: cs) = _
  rw [List.length_cons]
  simp only [frameSubAux, h, Bool.false_eq_true, if_false]
  rfl

/-! ## The sub scanner's tests ignore appended trailing whitespace -/

theorem digitAt_append_space {ws : List Char} (hws : ∀ ch ∈ ws, isPySpace ch = true)
    (x : List Char) (i : Nat) : digitAt (x ++ ws) i = digitAt x i := by
  unfold digitAt
  by_cases h : i < x.length
  · rw [List.getElem?_append]
    simp [h]
  · rw [List.getElem?_append_right (Nat.le_of_not_lt h),
      List.getElem?_eq_none (Nat.le_of_not_lt h)]
    rcases h2 : ws[i - x.length]? with _ | d
    · simp
    · simp [space_not_digit (hws d (List.getElem?_mem h2))]

theorem colonAt_append_space {ws : List Char} (hws : ∀ ch ∈ ws, isPySpace ch = true)
    (x : List Char) (i : Nat) : colonAt (x ++ ws) i = colonAt x i := by
  unfold colonAt
  by_cases h : i < x.length
  · rw [List.getElem?_append]
    simp [h]
  · rw [List.getElem?_append_right (Nat.le_of_not_lt h),
      List.getElem?_eq_none (Nat.le_of_not_lt h)]
    rcases h2 : ws[i - x.length]? with _ | d
    · simp
    · simp [space_ne_colon (hws d (List.getElem?_mem h2))]

theorem isHMS_append_space {ws : List Char} (hws : ∀ ch ∈ ws, isPySpace ch = true)
    (x : List Char) : isHMS (x ++ ws) = isHMS x := by
  unfold isHMS
  rw [digitAt_append_space hws, digitAt_append_space hws, digitAt_append_space hws,
    digitAt_append_space hws, digitAt_append_space hws, digitAt_append_space hws,
    colonAt_append_space hws, colonAt_append_space hws]

theorem lookFrame_append_space {ws : List Char} (hws : ∀ ch ∈ ws, isPySpace ch = true)
    (x : List Char) : lookFrame (x ++ ws) = lookFrame x := by
  cases x with
  | nil =>
    show lookFrame ws = lookFrame []
    unfold lookFrame
    rcases h2 : ws[0]? with _ | d
    · simp [h2]
    · have hd := hws d (List.getElem?_mem h2)
      simp [h2, space_ne_colon hd, space_ne_dot hd, digitAt]
  | cons c cs =>
    unfold lookFrame
    rw [digitAt_append_space hws, digitAt_append_space hws]
    simp [List.cons_append]

theorem isHMS_short {x : List Char} (h : x.length < 8) : isHMS x = false := by
  have h7 : x[7]? = none := List.getElem?_eq_none (by omega)
  simp [isHMS, digitAt, h7]

theorem isHMS_length {x : List Char} (h : isHMS x = true) : 8 ≤ x.length := by
  by_contra hc
  rw [isHMS_short (by omega)] at h
  exact Bool.false_ne_true h

theorem isHMS_cons_not_digit {c : Char} {cs : List Char} (h : isPyDigit c = false) :
    isHMS (c :: cs) = false := by
  simp [isHMS, digitAt, h]

/-! ## Structure of the substitution's output -/

theorem frameSub_nil : frameSub [] = [] := rfl

theorem frameSub_cons_head (c : Char) (cs : List Char) :
    ∃ t, frameSub (c :: cs) = c :: t := by
  cases h : (isHMS (c :: cs) && !lookFrame ((c :: cs).drop 8)) with
  | false => exact ⟨frameSub cs, frameSub_cons_neg h⟩
  | true =>
    refine ⟨List.take 7 cs ++ ('.' :: '0' :: '0' :: []) ++ frameSub ((c :: cs).drop 8), ?_⟩
    rw [frameSub_cons_pos h]
    simp

theorem frameSub_eq_nil_iff {l : List Char} : frameSub l = [] ↔ l = [] := by
  cases l with
  | nil => simp [frameSub_nil]
  | cons c cs =>
    obtain ⟨t, ht⟩ := frameSub_cons_head c cs
    simp [ht]

theorem frameSub_all_space {l : List Char} (h : ∀ ch ∈ l, isPySpace ch = true) :
    frameSub l = l := by
  induction l with
  | nil => rfl
  | cons c cs ih =>
    have hc : isPyDigit c = false := space_not_digit (h c (List.mem_cons_self c cs))
    rw [frameSub_cons_neg (by simp [isHMS_cons_not_digit hc])]
    rw [ih (fun ch hch => h ch (List.mem_cons_of_mem c hch))]

theorem frameSub_space_append {p : List Char} (hp : ∀ ch ∈ p, isPySpace ch = true) :
    ∀ y, frameSub (p ++ y) = p ++ frameSub y := by
  intro y
  induction p with
  | nil => rfl
  | cons c p' ih =>
    have hc : isPyDigit c = false := space_not_digit (hp c (List.mem_cons_self c p'))
    rw [List.cons_append, frameSub_cons_neg (by simp [isHMS_cons_not_digit hc])]
    rw [ih (fun ch hch => hp ch (List.mem_cons_of_mem c hch))]
    rfl

theorem frameSub_append_space {ws : List Char} (hws : ∀ ch ∈ ws, isPySpace ch = true) :
    ∀ x : List Char, frameSub (x ++ ws) = frameSub x ++ ws := by
  have H : ∀ n (x : List Char), x.length ≤ n → frameSub (x ++ ws) = frameSub x ++ ws := by
    intro n
    induction n with
    | zero =>
      intro x hx
      have : x = [] := List.length_eq_zero.mp (Nat.le_zero.mp hx)
      subst this
      simpa using frameSub_all_space hws
    | succ n ih =>
      intro x hx
      cases x with
      | nil => simpa using frameSub_all_space hws
      | cons c cs =>
        have hcond : (isHMS ((c :: cs) ++ ws) && !lookFrame (((c :: cs) ++ ws).drop 8)) =
            (isHMS (c :: cs) && !lookFrame ((c :: cs).drop 8)) := by
          rw [isHMS_append_space hws]
          by_cases h8 : 8 ≤ (c :: cs).length
          · rw [List.drop_append_of_le_length h8, lookFrame_append_space hws]
          · have hs : isHMS (c :: cs) = false := isHMS_short (by omega)
            simp [hs]
        cases h : (isHMS (c :: cs) && !lookFrame ((c :: cs).drop 8)) with
        | false =>
          have hcond' : (isHMS (c :: (cs ++ ws)) && !lookFrame ((c :: (cs ++ ws)).drop 8)) = false := by
            rw [← List.cons_append]
            rw [hcond]
            exact h
          rw [List.cons_append, frameSub_cons_neg hcond', frameSub_cons_neg h]
          rw [ih cs (by simp only [List.length_cons] at hx; omega)]
          rfl
        | true =>
          have h8 : 8 ≤ (c :: cs).length :=
            isHMS_length (Bool.and_elim_left h)
          have hcond' : (isHMS (c :: (cs ++ ws)) && !lookFrame ((c :: (cs ++ ws)).drop 8)) = true := by
            rw [← List.cons_append, hcond]
            exact h
          rw [List.cons_append, frameSub_cons_pos hcond', frameSub_cons_pos h]
          rw [← List.cons_append, List.take_append_of_le_length h8,
            List.drop_append_of_le_length h8]
          rw [ih ((c :: cs).drop 8)
            (by simp only [List.length_drop, List.length_cons] at *; omega)]
          simp
  exact fun x => H x.length x (Nat.le_refl _)

theorem frameSub_getLast? : ∀ x : List Char,
    (frameSub x).getLast? = x.getLast? ∨ (frameSub x).getLast? = some '0' := by
  have H : ∀ n (x : List Char), x.length ≤ n →
      (frameSub x).getLast? = x.getLast? ∨ (frameSub x).getLast? = some '0' := by
    intro n
    induction n with
    | zero =>
      intro x hx
      have : x = [] := List.length_eq_zero.mp (Nat.le_zero.mp hx)
      subst this
      left
      rfl
    | succ n ih =>
      intro x hx
      cases x with
      | nil => left; rfl
      | cons c cs =>
        cases h : (isHMS (c :: cs) && !lookFrame ((c :: cs).drop 8)) with
        | false =>
          rw [frameSub_cons_neg h]
          by_cases hcs : cs = []
          · subst hcs
            left
            rw [frameSub_nil]
          · have hne : frameSub cs ≠ [] := fun hh => hcs (frameSub_eq_nil_iff.mp hh)
            have step : (c :: frameSub cs).getLast? = (frameSub cs).getLast? := by
              cases hfs : frameSub cs with
              | nil => exact absurd hfs hne
              | cons e es => rw [List.getLast?_cons_cons]
            have step2 : (c :: cs).getLast? = cs.getLast? := by
              cases hcs2 : cs with
              | nil => exact absurd hcs2 hcs
              | cons d ds => rw [List.getLast?_cons_cons]
            rw [step, step2]
            exact ih cs (by simp only [List.length_cons] at hx; omega)
        | true =>
          rw [frameSub_cons_pos h]
          have h8 : 8 ≤ (c :: cs).length := isHMS_length (Bool.and_elim_left h)
          have htot : ((c :: cs).take 8 ++ ('.' :: '0' :: '0' :: []) ++
              frameSub ((c :: cs).drop 8)).getLast?
              = (frameSub ((c :: cs).drop 8)).getLast?.or (some '0') := by
            rw [List.append_assoc, List.getLast?_append, List.getLast?_append]
            cases (frameSub ((c :: cs).drop 8)).getLast? <;> rfl
          rw [htot]
          cases hC : (frameSub ((c :: cs).drop 8)).getLast? with
          | none =>
            right
            rfl
          | some v =>
            have hne : (c :: cs).drop 8 ≠ [] := by
              intro hd
              rw [hd, frameSub_nil] at hC
              simp at hC
            have hxl : (c :: cs).getLast? = ((c :: cs).drop 8).getLast? := by
              conv_lhs => rw [← List.take_append_drop 8 (c :: cs)]
              rw [List.getLast?_append]
              obtain ⟨u, hu⟩ : ∃ u, ((c :: cs).drop 8).getLast? = some u := by
                cases hdl : ((c :: cs).drop 8).getLast? with
                | none => exact absurd (List.getLast?_eq_none_iff.mp hdl) hne
                | some u => exact ⟨u, rfl⟩
              have hu7 : (List.drop 7 cs).getLast? = some u := by
                simpa using hu
              simp [hu7]
            rcases ih ((c :: cs).drop 8)
                (by simp only [List.length_drop, List.length_cons] at *; omega) with hih | hih
            · left
              rw [hC] at hih
              rw [hxl, ← hih]
              rfl
            · right
              rw [hC] at hih
              rw [hih]
              rfl
  exact fun x => H x.length x (Nat.le_refl _)

/-! ## `strip` commutes with the substitution -/

theorem dropWhile_space_frameSub : ∀ l : List Char,
    (frameSub l).dropWhile isPySpace = frameSub (l.dropWhile isPySpace) := by
  intro l
  induction l with
  | nil => rfl
  | cons c cs ih =>
    cases hc : isPySpace c with
    | true =>
      have hd : isPyDigit c = false := space_not_digit hc
      rw [frameSub_cons_neg (by simp [isHMS_cons_not_digit hd]),
        List.dropWhile_cons, List.dropWhile_cons]
      simp only [hc, if_true]
      exact ih
    | false =>
      obtain ⟨t, ht⟩ := frameSub_cons_head c cs
      rw [ht, List.dropWhile_cons, List.dropWhile_cons]
      simp only [hc, Bool.false_eq_true, if_false]
      rw [← ht]

theorem stripTrail_eq_self {y : List Char}
    (h : ∀ v, y.getLast? = some v → isPySpace v = false) :
    (y.reverse.dropWhile isPySpace).reverse = y := by
  cases hy : y.reverse with
  | nil =>
    have : y = [] := List.reverse_eq_nil_iff.mp hy
    subst this
    rfl
  | cons v m =>
    have hv : y.getLast? = some v := by
      rw [← List.head?_reverse, hy]
      rfl
    rw [List.dropWhile_cons]
    simp only [h v hv, Bool.false_eq_true, if_false]
    rw [← hy, List.reverse_reverse]

theorem stripTrail_append_space {ws : List Char} (hws : ∀ ch ∈ ws, isPySpace ch = true)
    (y : List Char) :
    (((y ++ ws).reverse.dropWhile isPySpace)).reverse =
      ((y.reverse.dropWhile isPySpace)).reverse := by
  rw [List.reverse_append, List.dropWhile_append]
  have : ws.reverse.dropWhile isPySpace = [] :=
    List.dropWhile_eq_nil_iff.mpr (fun x hx => hws x (List.mem_reverse.mp hx))
  simp [this]

theorem stripTrail_frameSub (m : List Char) :
    ((frameSub m).reverse.dropWhile isPySpace).reverse =
      frameSub ((m.reverse.dropWhile isPySpace).reverse) := by
  set x := (m.reverse.dropWhile isPySpace).reverse with hxdef
  set w := (m.reverse.takeWhile isPySpace).reverse with hwdef
  have hw : ∀ ch ∈ w, isPySpace ch = true := by
    intro ch hch
    rw [hwdef] at hch
    exact List.mem_takeWhile_imp (List.mem_reverse.mp hch)
  have hxlast : ∀ v, x.getLast? = some v → isPySpace v = false := by
    intro v hv
    rw [hxdef, List.getLast?_reverse] at hv
    have hh := List.head?_dropWhile_not isPySpace m.reverse
    rw [hv] at hh
    exact hh
  have hfx : ∀ v, (frameSub x).getLast? = some v → isPySpace v = false := by
    intro v hv
    rcases frameSub_getLast? x with h | h
    · exact hxlast v (h ▸ hv)
    · rw [h] at hv
      cases hv
      decide
  have hm : m = x ++ w := by
    rw [hxdef, hwdef, ← List.reverse_append, List.takeWhile_append_dropWhile,
      List.reverse_reverse]
  rw [hm, frameSub_append_space hw x, stripTrail_append_space hw, stripTrail_eq_self hfx]

theorem pyStrip_frameSub (l : List Char) :
    pyStrip (frameSub l) = frameSub (pyStrip l) := by
  unfold pyStrip
  rw [dropWhile_space_frameSub l]
  exact stripTrail_frameSub (l.dropWhile isPySpace)

theorem scannerNormalize_eq (l : List Char) :
    scannerNormalize l = labelNormalize (pyStrip l) := by
  unfold scannerNormalize labelNormalize
  rw [pyStrip_frameSub]

/-! ## Scanner / assembler / parser pipeline facts -/

theorem findIdx?_none_prop {α : Type} {p : α → Bool} :
    ∀ (l : List α) (i : Nat), List.findIdx? p l i = none → ∀ x ∈ l, p x = false := by
  intro l
  induction l with
  | nil => intro i _ x hx; cases hx
  | cons a as ih =>
    intro i h x hx
    rw [List.findIdx?_cons] at h
    by_cases ha : p a = true
    · rw [ha] at h
      simp at h
    · rcases hx with _ | hx
      · exact Bool.eq_false_iff.mpr ha
      · exact ih (i + 1) (by simpa [ha] using h) x (by assumption)

theorem findIdx?_some_prop {α : Type} {p : α → Bool} :
    ∀ (l : List α) (i n : Nat), List.findIdx? p l i = some n →
      i ≤ n ∧ n - i < l.length ∧ ∃ x, l[n - i]? = some x ∧ p x = true := by
  intro l
  induction l with
  | nil => intro i n h; simp [List.findIdx?] at h
  | cons a as ih =>
    intro i n h
    rw [List.findIdx?_cons] at h
    by_cases ha : p a = true
    · rw [ha] at h
      simp only [if_true] at h
      cases h
      exact ⟨Nat.le_refl _, by simp, a, by simp, ha⟩
    · have h' := ih (i + 1) n (by simpa [ha] using h)
      obtain ⟨h1, h2, x, hx, hpx⟩ := h'
      refine ⟨by omega, by simp only [List.length_cons]; omega, x, ?_, hpx⟩
      have : n - i = (n - (i + 1)) + 1 := by omega
      rw [this]
      simpa using hx

theorem assemble_cons_matches {l : List Char} {rest : List (List Char)}
    (h : (timeMatch (labelNormalize (pyStrip l))).isSome = true) :
    ∃ b t, assemble (l :: rest) = (pyStrip l, b) :: t := by
  show ∃ b t, assembleAux (rest.length + 1) (l :: rest) = (pyStrip l, b) :: t
  simp only [assembleAux, h, if_true]
  cases rest with
  | nil => exact ⟨[], [], rfl⟩
  | cons nxt rest2 =>
    by_cases h2 : (timeMatch (labelNormalize (pyStrip nxt))).isSome = true
    · simp only [h2, if_true]
      exact ⟨[], _, rfl⟩
    · simp only [Bool.eq_false_iff.mpr h2, Bool.false_eq_true, if_false]
      exact ⟨pyStrip nxt, _, rfl⟩

theorem assembleAux_sound : ∀ (fuel : Nat) (ls : List (List Char)) (b : List Char × List Char),
    b ∈ assembleAux fuel ls → (timeMatch (labelNormalize b.1)).isSome = true := by
  intro fuel
  induction fuel with
  | zero =>
    intro ls b hb
    simp [assembleAux] at hb
  | succ fuel ih =>
    intro ls b hb
    cases ls with
    | nil => simp [assembleAux] at hb
    | cons l rest =>
      cases rest with
      | nil =>
        simp only [assembleAux] at hb
        by_cases h : (timeMatch (labelNormalize (pyStrip l))).isSome = true
        · rw [h] at hb
          simp only [if_true, List.mem_singleton] at hb
          subst hb
          exact h
        · rw [Bool.eq_false_iff.mpr h] at hb
          simp only [Bool.false_eq_true, if_false] at hb
          exact ih _ _ hb
      | cons nxt rest2 =>
        simp only [assembleAux] at hb
        by_cases h : (timeMatch (labelNormalize (pyStrip l))).isSome = true
        · rw [h] at hb
          simp only [if_true] at hb
          by_cases h2 : (timeMatch (labelNormalize (pyStrip nxt))).isSome = true
          · rw [h2] at hb
            simp only [if_true, List.mem_cons] at hb
            rcases hb with hb | hb
            · subst hb
              exact h
            · exact ih _ _ hb
          · rw [Bool.eq_false_iff.mpr h2] at hb
            simp only [Bool.false_eq_true, if_false, List.mem_cons] at hb
            rcases hb with hb | hb
            · subst hb
              exact h
            · exact ih _ _ hb
        · rw [Bool.eq_false_iff.mpr h] at hb
          simp only [Bool.false_eq_true, if_false] at hb
          exact ih _ _ hb

theorem assemble_sound {ls : List (List Char)} {b : List Char × List Char}
    (hb : b ∈ assemble ls) : (timeMatch (labelNormalize b.1)).isSome = true :=
  assembleAux_sound _ _ _ hb

theorem parseBlocks_length {bs : List (List Char × List Char)}
    (h : ∀ b ∈ bs, (timeMatch (labelNormalize b.1)).isSome = true) :
    (parseBlocks bs).length = bs.length := by
  induction bs with
  | nil => rfl
  | cons b bs ih =>
    have hb := h b (List.mem_cons_self b bs)
    cases ht : timeMatch (labelNormalize b.1) with
    | none =>
      rw [ht] at hb
      simp at hb
    | some tf =>
      have ihh := ih (fun x hx => h x (List.mem_cons_of_mem b hx))
      unfold parseBlocks at ihh ⊢
      rw [List.filterMap_cons]
      simp only [ht, Option.map_some', List.length_cons]
      omega

theorem renderBlocks_cons_ne_nil (nForce mmColon : Bool) (i prev : Nat)
    (b : ParsedBlock) (rest : List ParsedBlock) :
    renderBlocks nForce mmColon i prev (b :: rest) ≠ [] := by
  show renderBlock nForce mmColon i prev b rest.head? ++ _ ≠ []
  unfold renderBlock
  intro h
  rw [List.append_assoc, List.append_assoc] at h
  rcases List.append_eq_nil.mp h with ⟨_, h2⟩
  rcases List.append_eq_nil.mp h2 with ⟨h3, _⟩
  cases h3

/-! ## Claim theorems -/

/-- Claim C7: `convert` returns the NoTimecodeFound error if and only if no
input line matches the dual-timecode pattern after normalization; for every
input in which at least one line matches, `convert` returns a non-error
result whose script is a non-empty sequence of lines. -/
theorem claim_C7 (text : String) (nForce mmColon : Bool) :
    (convertNarrationScript text nForce mmColon = .error noTimecodeMsg ↔
      ∀ l ∈ splitLines (pyStrip text.data), scannerMatches l = false) ∧
    ((∃ l ∈ splitLines (pyStrip text.data), scannerMatches l = true) →
      ∃ ls ai, convertNarrationScript text nForce mmColon = .ok ls ai ∧ ls ≠ []) := by
  cases hidx : (splitLines (pyStrip text.data)).findIdx? scannerMatches with
  | none =>
    have hconv : convertNarrationScript text nForce mmColon = .error noTimecodeMsg := by
      simp only [convertNarrationScript, hidx]
    refine ⟨⟨fun _ => fun l hl => findIdx?_none_prop _ 0 hidx l hl, fun _ => hconv⟩, ?_⟩
    rintro ⟨l, hl, hm⟩
    have hfalse := findIdx?_none_prop _ 0 hidx l hl
    rw [hm] at hfalse
    cases hfalse
  | some n =>
    obtain ⟨-, hlt, x, hx, hpx⟩ := findIdx?_some_prop _ 0 n hidx
    simp only [Nat.sub_zero] at hlt hx
    obtain ⟨hn, hgx⟩ := List.getElem?_eq_some.mp hx
    have hdrop : (splitLines (pyStrip text.data)).drop n =
        x :: (splitLines (pyStrip text.data)).drop (n + 1) := by
      rw [List.drop_eq_getElem_cons hn, hgx]
    have hconv : convertNarrationScript text nForce mmColon =
        .ok (renderBlocks nForce mmColon 0 0
              (parseBlocks (assemble ((splitLines (pyStrip text.data)).drop n))))
            (aiData (assemble ((splitLines (pyStrip text.data)).drop n))) := by
      simp only [convertNarrationScript, hidx]
    constructor
    · constructor
      · intro h
        rw [hconv] at h
        cases h
      · intro hall
        have hfl := hall x (List.getElem?_mem hx)
        rw [hpx] at hfl
        cases hfl
    · intro _
      refine ⟨_, _, hconv, ?_⟩
      rw [hdrop]
      have hm : (timeMatch (labelNormalize (pyStrip x))).isSome = true := by
        rw [← scannerNormalize_eq]
        exact hpx
      obtain ⟨bdy, t, hassem⟩ :=
        @assemble_cons_matches x ((splitLines (pyStrip text.data)).drop (n + 1)) hm
      rw [hassem]
      cases ht : timeMatch (labelNormalize (pyStrip x)) with
      | none =>
        rw [ht] at hm
        cases hm
      | some tf =>
        unfold parseBlocks
        rw [List.filterMap_cons]
        simp only [ht, Option.map_some']
        exact renderBlocks_cons_ne_nil nForce mmColon 0 0 _ _

/-- Witness for C7 at a concrete input with a matching line. -/
theorem claim_C7_witness :
    ∃ ls ai, convertNarrationScript "00;00;00;00 - 00;00;02;29\nN ああああ" true false =
      .ok ls ai ∧ ls ≠ [] :=
  (claim_C7 "00;00;00;00 - 00;00;02;29\nN ああああ" true false).2 (by decide)

/-- Claim C8: `convert` is total — on every input and option combination it
returns a value (the error or a result) — and the defensive per-block
parse-failure branch is unreachable: every assembled block re-parses, so
the parsed sequence has exactly one entry per assembled block. -/
theorem claim_C8 (text : String) (nForce mmColon : Bool) :
    ((convertNarrationScript text nForce mmColon = .error noTimecodeMsg) ∨
      (∃ ls ai, convertNarrationScript text nForce mmColon = .ok ls ai)) ∧
    (∀ ls : List (List Char), (parseBlocks (assemble ls)).length = (assemble ls).length) := by
  constructor
  · cases hidx : (splitLines (pyStrip text.data)).findIdx? scannerMatches with
    | none =>
      left
      simp only [convertNarrationScript, hidx]
    | some n =>
      right
      refine ⟨renderBlocks nForce mmColon 0 0
          (parseBlocks (assemble ((splitLines (pyStrip text.data)).drop n))),
        aiData (assemble ((splitLines (pyStrip text.data)).drop n)), ?_⟩
      simp only [convertNarrationScript, hidx]
  · intro ls
    exact parseBlocks_length (fun b hb => assemble_sound hb)

/-- No output character of the full-width table is itself a key of the
table: the table's keys are half-width, its values full-width. -/
theorem zenkakuAll_value_not_key :
    ∀ p ∈ toZenkakuAllPairs, toZenkakuAllPairs.find? (fun q => q.1 = p.2) = none := by
  decide

theorem toZenkakuAllChar_idem (c : Char) :
    toZenkakuAllChar (toZenkakuAllChar c) = toZenkakuAllChar c := by
  cases hf : toZenkakuAllPairs.find? (fun p => p.1 = c) with
  | none =>
    have e : toZenkakuAllChar c = c := by
      simp [toZenkakuAllChar, applyTable, hf]
    rw [e]
    exact e
  | some pr =>
    have e : toZenkakuAllChar c = pr.2 := by
      simp [toZenkakuAllChar, applyTable, hf]
    have hmem : pr ∈ toZenkakuAllPairs := List.mem_of_find?_eq_some hf
    rw [e]
    simp [toZenkakuAllChar, applyTable, zenkakuAll_value_not_key pr hmem]

/-- Claim C9: the half-width→full-width conversion is idempotent — applying
the full conversion twice equals applying it once — and a string already in
full-width form (no character of it is a key of the conversion table) is
returned unchanged. -/
theorem claim_C9 (l : List Char) :
    (l.map toZenkakuAllChar).map toZenkakuAllChar = l.map toZenkakuAllChar ∧
    ((∀ c ∈ l, toZenkakuAllPairs.find? (fun p => p.1 = c) = none) →
      l.map toZenkakuAllChar = l) := by
  constructor
  · rw [List.map_map]
    exact List.map_congr_left (fun c _ => toZenkakuAllChar_idem c)
  · intro h
    conv_rhs => rw [← List.map_id l]
    exact List.map_congr_left (fun c hc => by
      simp [toZenkakuAllChar, applyTable, h c hc])

/-- Witness for C9's hypothesis-bearing part at a concrete full-width
string. -/
theorem claim_C9_witness :
    "Ｎ　ああああ".data.map toZenkakuAllChar = "Ｎ　ああああ".data :=
  (claim_C9 "Ｎ　ああああ".data).2 (by decide)

/-- Claim C2 (counterexample): with the force-narrator option off the code
does not strip a leading `N` token.  On the claim's own input the body
keeps the `N` (width-converted to `Ｎ`), so the output line is not the one
the claim states. -/
theorem claim_C2_counterexample :
    convertNarrationScript "00;00;00;00 - 00;00;02;29\nN ああああ" false false =
      .ok ["００００　　　Ｎ　ああああ (～０２)"]
        [("00;00;00;00 - 00;00;02;29".data, "N ああああ".data)] ∧
    "００００　　　Ｎ　ああああ (～０２)" ≠ "００００　　　ああああ (～０２)" := by
  exact ⟨by rfl, by decide⟩

/-- Claim C2 (amended): the `N` token is stripped only under the
force-narrator option: with it on, a leading `N`/`n`/`Ｎ` token followed by
whitespace is stripped, the trimmed remainder becomes the body and the
speaker symbol is the narrator `Ｎ`; with it off, nothing is stripped — the
body is the raw text (then width-converted) — so the claim's input with
forceNarratorTag false yields the line `００００　　　Ｎ　ああああ (～０２)`
with no speaker symbol emitted. -/
theorem claim_C2_amended :
    (∀ (t tok rest : List Char), speakerMatch t = some (tok, rest) →
      (tok = ['N'] ∨ tok = ['n'] ∨ tok = ['Ｎ']) →
      speakerBody true t =
        (['Ｎ'], if (pyStrip rest).isEmpty then missingBody else pyStrip rest)) ∧
    (∀ t : List Char, speakerBody false t =
      ([], if (pyStrip t).isEmpty then missingBody else t)) ∧
    convertNarrationScript "00;00;00;00 - 00;00;02;29\nN ああああ" false false =
      .ok ["００００　　　Ｎ　ああああ (～０２)"]
        [("00;00;00;00 - 00;00;02;29".data, "N ああああ".data)] := by
  refine ⟨?_, fun t => rfl, by rfl⟩
  intro t tok rest hmatch htok
  have hup : tok.map pyUpperChar = ['N'] ∨
      (tok.map pyUpperChar ≠ ['N'] ∧ tok.map toZenkakuAllChar = ['Ｎ']) := by
    rcases htok with h | h | h <;> subst h
    · left; decide
    · left; decide
    · right; exact ⟨by decide, by decide⟩
  unfold speakerBody
  rw [hmatch]
  rcases hup with h | ⟨h1, h2⟩
  · simp [h]
  · simp [h1, h2]

/-- Witness for C2's amended stripping rule at a concrete body text. -/
theorem claim_C2_amended_witness :
    speakerBody true "N ああああ".data = (['Ｎ'], "ああああ".data) := by
  have h := claim_C2_amended.1 "N ああああ".data ['N'] "ああああ".data (by decide)
    (Or.inl rfl)
  rw [h]
  decide

/-- Claim C3 (counterexample): at a gap of exactly `1 + 10/30` seconds
(first block ends `00;00;03;00`, next starts `00;00;04;10`) the claim
requires the end-time suffix and trailing blank line to be present, but the
code's double-precision comparison deems the gap below the threshold and
suppresses both: the first output line carries no suffix and no blank line
follows it. -/
theorem claim_C3_counterexample :
    (startInstantQ ⟨0, 0, 4, 10, 0, 0, 5, 0, "B y".data⟩ -
        endInstantQ ⟨0, 0, 3, 0, 0, 0, 3, 0, "A x".data⟩ = 1 + 10 / 30) ∧
    addBlankLine ⟨0, 0, 3, 0, 0, 0, 3, 0, "A x".data⟩
      (some ⟨0, 0, 4, 10, 0, 0, 5, 0, "B y".data⟩) = false ∧
    convertNarrationScript
        "00;00;03;00 - 00;00;03;00\nA x\n00;00;04;10 - 00;00;05;00\nB y" true false =
      .ok ["０００３　　　Ａ　ｘ", "０００４半　　Ｂ　ｙ (～０４)"]
        [("00;00;03;00 - 00;00;03;00".data, "A x".data),
         ("00;00;04;10 - 00;00;05;00".data, "B y".data)] := by
  refine ⟨?_, by rfl, by rfl⟩
  unfold startInstantQ endInstantQ
  norm_num

/-- Claim C3 (amended): for every parsed block, the end-time suffix and the
trailing blank line are present iff the block is the last one or the gap to
the next block's start instant — computed, as the code does, in
double-precision float arithmetic — is at least the double value of
`1 + 10/30` seconds; when the float comparison deems the gap below the
threshold, both are suppressed (and the last block emits no trailing blank
line). -/
theorem claim_C3_amended (b nb : ParsedBlock) :
    (endStringOf b none ≠ [] ∧ trailingBlank b none = false) ∧
    (connectionThreshold ≤ fl (qSub (startTotalSecondsF nb) (endTotalSecondsF b)) →
      endStringOf b (some nb) ≠ [] ∧ trailingBlank b (some nb) = true) ∧
    (fl (qSub (startTotalSecondsF nb) (endTotalSecondsF b)) < connectionThreshold →
      endStringOf b (some nb) = [] ∧ trailingBlank b (some nb) = false) := by
  have hsuf : endSuffix b ≠ [] := by
    unfold endSuffix
    simp
  refine ⟨⟨?_, ?_⟩, fun h => ⟨?_, ?_⟩, fun h => ⟨?_, ?_⟩⟩
  · simpa [endStringOf, addBlankLine] using hsuf
  · simp [trailingBlank]
  · have hd : decide (fl (qSub (startTotalSecondsF nb) (endTotalSecondsF b)) <
        connectionThreshold) = false := decide_eq_false (not_lt.mpr h)
    simpa [endStringOf, addBlankLine, hd] using hsuf
  · have hd : decide (fl (qSub (startTotalSecondsF nb) (endTotalSecondsF b)) <
        connectionThreshold) = false := decide_eq_false (not_lt.mpr h)
    simp [trailingBlank, addBlankLine, hd]
  · have hd : decide (fl (qSub (startTotalSecondsF nb) (endTotalSecondsF b)) <
        connectionThreshold) = true := decide_eq_true h
    simp [endStringOf, addBlankLine, hd]
  · have hd : decide (fl (qSub (startTotalSecondsF nb) (endTotalSecondsF b)) <
        connectionThreshold) = true := decide_eq_true h
    simp [trailingBlank, addBlankLine, hd]

/-- Witness for C3's amended rule at concrete blocks on both sides of the
threshold. -/
theorem claim_C3_amended_witness :
    (endStringOf ⟨0, 0, 0, 0, 0, 0, 2, 29, []⟩ (some ⟨0, 0, 10, 0, 0, 0, 12, 0, []⟩) ≠ [] ∧
      trailingBlank ⟨0, 0, 0, 0, 0, 0, 2, 29, []⟩ (some ⟨0, 0, 10, 0, 0, 0, 12, 0, []⟩) = true) ∧
    (endStringOf ⟨0, 0, 0, 0, 0, 0, 2, 29, []⟩ (some ⟨0, 0, 3, 0, 0, 0, 5, 0, []⟩) = [] ∧
      trailingBlank ⟨0, 0, 0, 0, 0, 0, 2, 29, []⟩ (some ⟨0, 0, 3, 0, 0, 0, 5, 0, []⟩) = false) :=
  ⟨(claim_C3_amended ⟨0, 0, 0, 0, 0, 0, 2, 29, []⟩ ⟨0, 0, 10, 0, 0, 0, 12, 0, []⟩).2.1 (by decide),
   (claim_C3_amended ⟨0, 0, 0, 0, 0, 0, 2, 29, []⟩ ⟨0, 0, 3, 0, 0, 0, 5, 0, []⟩).2.2 (by decide)⟩

/-- Claim C4: the hour-marker rule — for the first block a marker for
`startHour` iff `startHour > 0`; for later blocks a marker for `endHour` if
`startHour < endHour`, else for `startHour` if `startHour > previousEndHour`,
else none; a marker renders as a blank line then `【hＨ】`; and the
formatter always passes the block's `endHour` on as the new
`previousEndHour`, whether or not a marker was emitted. -/
theorem claim_C4 :
    (∀ (prev : Nat) (b : ParsedBlock),
      markerFor 0 prev b = if 0 < b.startHH then some b.startHH else none) ∧
    (∀ (i prev : Nat) (b : ParsedBlock), i ≠ 0 →
      markerFor i prev b =
        if b.startHH < b.endHH then some b.endHH
        else if prev < b.startHH then some b.startHH
        else none) ∧
    (∀ (nForce mmColon : Bool) (i prev : Nat) (b : ParsedBlock)
        (next? : Option ParsedBlock) (h : Nat), markerFor i prev b = some h →
      (renderBlock nForce mmColon i prev b next?).take 2 =
        ["", String.mk (hourMarkerLine h)]) ∧
    (∀ (nForce mmColon : Bool) (i prev : Nat) (b : ParsedBlock)
        (rest : List ParsedBlock),
      renderBlocks nForce mmColon i prev (b :: rest) =
        renderBlock nForce mmColon i prev b rest.head? ++
          renderBlocks nForce mmColon (i + 1) b.endHH rest) := by
  refine ⟨fun prev b => ?_, fun i prev b hi => ?_, ?_, fun _ _ _ _ _ _ => rfl⟩
  · simp [markerFor]
  · simp [markerFor, hi]
  · intro nForce mmColon i prev b next? h hm
    unfold renderBlock
    rw [hm]
    rfl

/-- Witness for C4's marker conditions at concrete values. -/
theorem claim_C4_witness :
    markerFor 1 3 ⟨2, 0, 0, 0, 5, 0, 0, 0, []⟩ = some 5 := by
  rw [claim_C4.2.1 1 3 ⟨2, 0, 0, 0, 5, 0, 0, 0, []⟩ (by decide)]
  decide

/-! ## Start-time and end-time rendering facts -/

theorem pad2_len2 : ∀ n < 100, (pad2 n).length = 2 := by decide

theorem finishStart_eq_spec (t0 : Nat) (mc half : Bool) :
    finishStartTime (pad2 ((t0 / 60) % 60) ++ pad2 (t0 % 60)) mc half =
      specStartRender t0 mc half := by
  unfold finishStartTime specStartRender
  cases mc with
  | false => rfl
  | true =>
    have h2 : (pad2 ((t0 / 60) % 60)).length = 2 := pad2_len2 _ (by omega)
    have htake : (pad2 ((t0 / 60) % 60) ++ pad2 (t0 % 60)).take 2 = pad2 ((t0 / 60) % 60) := by
      rw [List.take_append_of_le_length (by omega), List.take_of_length_le (by omega)]
    have hdrop : (pad2 ((t0 / 60) % 60) ++ pad2 (t0 % 60)).drop 2 = pad2 (t0 % 60) := by
      rw [List.drop_append_of_le_length (by omega), List.drop_eq_nil_of_le (by omega),
        List.nil_append]
    simp only [htake, hdrop, if_true]

theorem han_not_mem_spec (t0 : Nat) (mc : Bool) : '半' ∉ specStartRender t0 mc false := by
  unfold specStartRender
  simp only [Bool.false_eq_true, if_false]
  intro hmem
  rw [List.mem_map] at hmem
  obtain ⟨c, hc, hfc⟩ := hmem
  have key1 : ∀ n < 100, ∀ c ∈ pad2 n, toZenkakuNumChar c ≠ '半' := by decide
  have key2 : toZenkakuNumChar '：' ≠ '半' := by decide
  cases mc with
  | false =>
    simp only [Bool.false_eq_true, if_false, List.mem_append] at hc
    rcases hc with hc | hc
    · exact key1 _ (by omega) c hc hfc
    · exact key1 _ (by omega) c hc hfc
  | true =>
    simp only [if_true, List.mem_append, List.mem_cons] at hc
    rcases hc with hc | hc | hc
    · exact key1 _ (by omega) c hc hfc
    · subst hc
      exact key2 hfc
    · exact key1 _ (by omega) c hc hfc

/-- Claim C5: the start-time display rule — with
`totalSeconds = (startMinute mod 60) * 60 + startSecond`, frames 0–9 give no
adjustment, a three-space spacer and no `半`; frames 10–22 give no
adjustment, a two-space spacer and `半`; frames 23–29 increment
`totalSeconds`, with a three-space spacer and no `半`; the displayed time is
`(totalSeconds // 60) mod 60` and `totalSeconds mod 60`, two full-width
digits each, as `mmss` or `mm：ss` exactly when the colon option is set;
and `半` appears iff the start frame is in 10–22. -/
theorem claim_C5 (b : ParsedBlock) (mmColon : Bool) :
    (b.startFR ≤ 9 →
      startTimeParts b mmColon =
        (specStartRender ((b.startMM % 60) * 60 + b.startSS) mmColon false,
         ['　', '　', '　'])) ∧
    (10 ≤ b.startFR → b.startFR ≤ 22 →
      startTimeParts b mmColon =
        (specStartRender ((b.startMM % 60) * 60 + b.startSS) mmColon true,
         ['　', '　'])) ∧
    (23 ≤ b.startFR → b.startFR ≤ 29 →
      startTimeParts b mmColon =
        (specStartRender ((b.startMM % 60) * 60 + b.startSS + 1) mmColon false,
         ['　', '　', '　'])) ∧
    ('半' ∈ (startTimeParts b mmColon).1 ↔ (10 ≤ b.startFR ∧ b.startFR ≤ 22)) := by
  have hb1 : b.startFR ≤ 9 →
      startTimeParts b mmColon =
        (specStartRender ((b.startMM % 60) * 60 + b.startSS) mmColon false,
         ['　', '　', '　']) := by
    intro h
    unfold startTimeParts
    rw [if_pos (by simpa using h)]
    dsimp only
    rw [finishStart_eq_spec]
  have hb2 : 10 ≤ b.startFR → b.startFR ≤ 22 →
      startTimeParts b mmColon =
        (specStartRender ((b.startMM % 60) * 60 + b.startSS) mmColon true,
         ['　', '　']) := by
    intro h1 h2
    unfold startTimeParts
    rw [if_neg (by simp; omega), if_pos (by simp [h1, h2])]
    dsimp only
    rw [finishStart_eq_spec]
  have hb3 : 23 ≤ b.startFR →
      startTimeParts b mmColon =
        (specStartRender ((b.startMM % 60) * 60 + b.startSS + 1) mmColon false,
         ['　', '　', '　']) := by
    intro h1
    unfold startTimeParts
    rw [if_neg (by simp; omega), if_neg (by simp; omega)]
    dsimp only
    rw [finishStart_eq_spec]
  refine ⟨hb1, hb2, fun h1 _ => hb3 h1, ?_⟩
  constructor
  · intro hmem
    by_contra hband
    rw [not_and_or] at hband
    have hout : b.startFR ≤ 9 ∨ 23 ≤ b.startFR := by omega
    rcases hout with h | h
    · rw [hb1 h] at hmem
      exact han_not_mem_spec _ _ hmem
    · rw [hb3 h] at hmem
      exact han_not_mem_spec _ _ hmem
  · rintro ⟨h1, h2⟩
    rw [hb2 h1 h2]
    unfold specStartRender
    simp

/-- Witness for C5 at a concrete block in the half band. -/
theorem claim_C5_witness :
    startTimeParts ⟨0, 61, 5, 15, 0, 0, 0, 0, []⟩ true =
      (specStartRender 65 true true, ['　', '　']) :=
  (claim_C5 ⟨0, 61, 5, 15, 0, 0, 0, 0, []⟩ true).2.1 (by decide) (by decide)

/-- Claim C6: the end-time suffix — when emitted, frames 0–9 decrement the
display second, borrowing a minute on underflow (0→59, minute down one);
the display minute is taken modulo 60; four digits `mmss` are shown iff
`startHour ≠ endHour` or the adjusted display minute differs from
`startMinute mod 60`, else only the two digits `ss`; wrapped as
`" (～…)"` in full-width digits. -/
theorem claim_C6 (b : ParsedBlock) (next? : Option ParsedBlock)
    (h : addBlankLine b next? = true) :
    endStringOf b next? =
      ' ' :: '(' :: '～' ::
        ((if b.startHH != b.endHH ||
              ((b.startMM : Int) % 60) != (specEndAdjusted b.endMM b.endSS b.endFR).1 then
            (pad2I (specEndAdjusted b.endMM b.endSS b.endFR).1 ++
              pad2I (specEndAdjusted b.endMM b.endSS b.endFR).2).map toZenkakuNumChar
          else
            (pad2I (specEndAdjusted b.endMM b.endSS b.endFR).2).map toZenkakuNumChar) ++
          [')']) := by
  unfold endStringOf
  rw [h]
  unfold endSuffix specEndAdjusted
  by_cases hfr : b.endFR ≤ 9
  · simp only [hfr, if_true]
    by_cases hneg : ((b.endSS : Int) - 1) < 0
    · simp only [hneg, if_true, if_pos hneg]
      simp
    · simp only [hneg, if_false, if_neg hneg]
      simp
  · simp only [hfr, if_false]
    have hneg : ¬ ((b.endSS : Int) < 0) := by omega
    simp only [hneg, if_false, if_neg hneg]
    simp

/-- Witness for C6 at a concrete block with an underflowing decrement. -/
theorem claim_C6_witness :
    endStringOf ⟨0, 0, 0, 0, 0, 1, 0, 5, []⟩ none =
      ' ' :: '(' :: '～' ::
        ((if (0 : Nat) != 0 || ((0 : Int) % 60) != (specEndAdjusted 1 0 5).1 then
            (pad2I (specEndAdjusted 1 0 5).1 ++ pad2I (specEndAdjusted 1 0 5).2).map
              toZenkakuNumChar
          else (pad2I (specEndAdjusted 1 0 5).2).map toZenkakuNumChar) ++ [')']) :=
  claim_C6 ⟨0, 0, 0, 0, 0, 1, 0, 5, []⟩ none (by rfl)

/-! ## Canonical timecode forms: acceptance by the scanner and pattern -/

theorem colon_mem_of_isHMS {l : List Char} (h : isHMS l = true) : ':' ∈ l := by
  have h2 : colonAt l 2 = true := by
    simp only [isHMS, Bool.and_eq_true] at h
    exact h.1.1.1.1.1.2
  unfold colonAt at h2
  exact List.getElem?_mem (by simpa using h2)

theorem frameSub_no_colon {l : List Char} (h : ':' ∉ l) : frameSub l = l := by
  induction l with
  | nil => rfl
  | cons c cs ih =>
    have hh : isHMS (c :: cs) = false := by
      cases hm : isHMS (c :: cs) with
      | false => rfl
      | true => exact absurd (colon_mem_of_isHMS hm) h
    rw [frameSub_cons_neg (by simp [hh])]
    rw [ih (fun hc => h (List.mem_cons_of_mem c hc))]

theorem pad2DD : ∀ n < 100, readDD (pad2 n) = some (n, []) := by decide

theorem readDD_append {l r : List Char} {v : Nat} (h : readDD l = some (v, [])) :
    readDD (l ++ r) = some (v, r) := by
  match l with
  | [] => simp [readDD] at h
  | [c] => simp [readDD] at h
  | c1 :: c2 :: rest =>
    simp only [readDD] at h
    by_cases hd : (isPyDigit c1 && isPyDigit c2) = true
    · simp only [hd, if_true, Option.some_inj, Prod.mk.injEq] at h
      obtain ⟨hv, hrest⟩ := h
      subst hv
      subst hrest
      simp [readDD, hd]
    · simp [hd] at h

theorem pad2_shape : ∀ n < 100,
    (pad2 n).length = 2 ∧ (∀ c ∈ pad2 n, isPyDigit c = true ∧ isPySpace c = false ∧
      c ≠ ':' ∧ normChar c = c) := by decide

theorem dropWhile_space_append {w : List Char} (hw : ∀ c ∈ w, isPySpace c = true)
    (y : List Char) : (w ++ y).dropWhile isPySpace = y.dropWhile isPySpace := by
  induction w with
  | nil => rfl
  | cons c w' ih =>
    rw [List.cons_append, List.dropWhile_cons]
    simp only [hw c (List.mem_cons_self c w'), if_true]
    exact ih (fun x hx => hw x (List.mem_cons_of_mem c hx))

/-- The timecode pattern on a canonically shaped character list: eight
two-digit groups with admissible separators and whitespace around the
dash. -/
theorem timeMatch_build
    (c1 c2 c3 c4 c5 c6 c7 c8 d1 d2 d3 d4 d5 d6 d7 d8 s1 s2 s3 s5 s6 s7 : Char)
    (w1 w2 tail : List Char)
    (hdig : ∀ c ∈ [c1, c2, c3, c4, c5, c6, c7, c8, d1, d2, d3, d4, d5, d6, d7, d8],
      isPyDigit c = true)
    (hs1 : s1 ∈ [':', ';']) (hs2 : s2 ∈ [':', ';']) (hs3 : s3 ∈ [';', '.'])
    (hs5 : s5 ∈ [':', ';']) (hs6 : s6 ∈ [':', ';']) (hs7 : s7 ∈ [';', '.'])
    (hw1 : ∀ c ∈ w1, isPySpace c = true) (hw2 : ∀ c ∈ w2, isPySpace c = true) :
    timeMatch (c1 :: c2 :: s1 :: c3 :: c4 :: s2 :: c5 :: c6 :: s3 :: c7 :: c8 ::
        (w1 ++ '-' :: (w2 ++ (d1 :: d2 :: s5 :: d3 :: d4 :: s6 :: d5 :: d6 :: s7 ::
          d7 :: d8 :: tail)))) =
      some ⟨10 * pyDigitVal c1 + pyDigitVal c2, 10 * pyDigitVal c3 + pyDigitVal c4,
            10 * pyDigitVal c5 + pyDigitVal c6, 10 * pyDigitVal c7 + pyDigitVal c8,
            10 * pyDigitVal d1 + pyDigitVal d2, 10 * pyDigitVal d3 + pyDigitVal d4,
            10 * pyDigitVal d5 + pyDigitVal d6, 10 * pyDigitVal d7 + pyDigitVal d8⟩ := by
  have h1 := hdig c1 (by simp)
  have h2 := hdig c2 (by simp)
  have h3 := hdig c3 (by simp)
  have h4 := hdig c4 (by simp)
  have h5 := hdig c5 (by simp)
  have h6 := hdig c6 (by simp)
  have h7 := hdig c7 (by simp)
  have h8 := hdig c8 (by simp)
  have g1 := hdig d1 (by simp)
  have g2 := hdig d2 (by simp)
  have g3 := hdig d3 (by simp)
  have g4 := hdig d4 (by simp)
  have g5 := hdig d5 (by simp)
  have g6 := hdig d6 (by simp)
  have g7 := hdig d7 (by simp)
  have g8 := hdig d8 (by simp)
  have hdashf : isPySpace '-' = false := by decide
  have hdash : ∀ y : List Char, ((w1 ++ '-' :: y).dropWhile isPySpace) = '-' :: y := by
    intro y
    rw [dropWhile_space_append hw1, List.dropWhile_cons, hdashf]
    simp
  have hd1sp : isPySpace d1 = false := by
    simp only [isPyDigit, Bool.or_eq_true, Bool.and_eq_true, decide_eq_true_eq] at g1
    simp only [isPySpace, Bool.or_eq_true, Bool.and_eq_true, decide_eq_true_eq,
      Bool.or_eq_false_iff, Bool.and_eq_false_iff, decide_eq_false_iff_not, not_le]
    omega
  have hsecond : ∀ y : List Char, ((w2 ++ d1 :: y).dropWhile isPySpace) = d1 :: y := by
    intro y
    rw [dropWhile_space_append hw2, List.dropWhile_cons, hd1sp]
    simp
  simp only [timeMatch, readDD, h1, h2, h3, h4, h5, h6, h7, h8, g1, g2, g3, g4, g5, g6,
    g7, g8, Bool.and_self, if_true, readSep, hs1, hs2, hs3, hs5, hs6, hs7, hdash, hsecond,
    List.mem_singleton, ite_true]

theorem pad2_two (n : Nat) (h : n < 100) :
    ∃ x y, pad2 n = [x, y] ∧ isPyDigit x = true ∧ isPyDigit y = true ∧
      10 * pyDigitVal x + pyDigitVal y = n := by
  obtain ⟨hl, -⟩ := pad2_shape n h
  obtain ⟨x, y, hxy⟩ := List.length_eq_two.mp hl
  have hdd := pad2DD n h
  rw [hxy] at hdd
  simp only [readDD] at hdd
  by_cases hd : (isPyDigit x && isPyDigit y) = true
  · simp only [hd, if_true, Option.some_inj, Prod.mk.injEq] at hdd
    obtain ⟨hx, hy⟩ := Bool.and_eq_true .. |>.mp hd
    exact ⟨x, y, hxy, hx, hy, hdd.1⟩
  · simp [hd] at hdd

theorem mkFrameExact_mem {a b c d e f g h : Nat} {c0 : Char}
    (hmem : c0 ∈ mkFrameExact a b c d e f g h) :
    c0 ∈ pad2 a ∨ c0 ∈ pad2 b ∨ c0 ∈ pad2 c ∨ c0 ∈ pad2 d ∨ c0 ∈ pad2 e ∨
    c0 ∈ pad2 f ∨ c0 ∈ pad2 g ∨ c0 ∈ pad2 h ∨ c0 = ';' ∨ c0 = ' ' ∨ c0 = '-' := by
  unfold mkFrameExact at hmem
  simp only [List.mem_append, List.mem_cons, List.not_mem_nil, or_false] at hmem
  tauto

/-- The dual-timecode pattern accepts the frame-exact semicolon form for
all two-digit field values (frames included) and extracts them. -/
theorem timeMatch_mkFrameExact (a b c d e f g h : Nat)
    (ha : a < 100) (hb : b < 100) (hc : c < 100) (hd : d < 100)
    (he : e < 100) (hf : f < 100) (hg : g < 100) (hh : h < 100) :
    timeMatch (labelNormalize (mkFrameExact a b c d e f g h)) =
      some ⟨a, b, c, d, e, f, g, h⟩ := by
  have hnc : ':' ∉ mkFrameExact a b c d e f g h := by
    intro hmem
    rcases mkFrameExact_mem hmem with hm | hm | hm | hm | hm | hm | hm | hm | hm | hm | hm <;>
      first
        | exact ((pad2_shape _ (by omega)).2 ':' hm).2.2.1 rfl
        | exact absurd hm (by decide)
  have hid : (mkFrameExact a b c d e f g h).map normChar = mkFrameExact a b c d e f g h := by
    conv_rhs => rw [← List.map_id (mkFrameExact a b c d e f g h)]
    apply List.map_congr_left
    intro c0 hc0
    rcases mkFrameExact_mem hc0 with hm | hm | hm | hm | hm | hm | hm | hm | hm | hm | hm <;>
      first
        | exact ((pad2_shape _ (by omega)).2 c0 hm).2.2.2
        | (rw [hm]; decide)
  unfold labelNormalize
  rw [frameSub_no_colon hnc, hid]
  obtain ⟨xa, ya, hpa, hdxa, hdya, hva⟩ := pad2_two a ha
  obtain ⟨xb, yb, hpb, hdxb, hdyb, hvb⟩ := pad2_two b hb
  obtain ⟨xc, yc, hpc, hdxc, hdyc, hvc⟩ := pad2_two c hc
  obtain ⟨xd, yd, hpd, hdxd, hdyd, hvd⟩ := pad2_two d hd
  obtain ⟨xe, ye, hpe, hdxe, hdye, hve⟩ := pad2_two e he
  obtain ⟨xf, yf, hpf, hdxf, hdyf, hvf⟩ := pad2_two f hf
  obtain ⟨xg, yg, hpg, hdxg, hdyg, hvg⟩ := pad2_two g hg
  obtain ⟨xh, yh, hph, hdxh, hdyh, hvh⟩ := pad2_two h hh
  have hshape : mkFrameExact a b c d e f g h =
      xa :: ya :: ';' :: xb :: yb :: ';' :: xc :: yc :: ';' :: xd :: yd ::
        ([' '] ++ '-' :: ([' '] ++ (xe :: ye :: ';' :: xf :: yf :: ';' :: xg :: yg :: ';' ::
          xh :: yh :: []))) := by
    unfold mkFrameExact
    rw [hpa, hpb, hpc, hpd, hpe, hpf, hpg, hph]
    rfl
  rw [hshape]
  have hbuild := timeMatch_build xa ya xb yb xc yc xd yd xe ye xf yf xg yg xh yh
    ';' ';' ';' ';' ';' ';' [' '] [' '] []
    (by
      intro c0 hc0
      simp only [List.mem_cons, List.not_mem_nil, or_false] at hc0
      rcases hc0 with hm | hm | hm | hm | hm | hm | hm | hm | hm | hm | hm | hm | hm | hm | hm | hm
      all_goals subst hm
      all_goals assumption)
    (by decide) (by decide) (by decide) (by decide) (by decide) (by decide)
    (by intro c0 hc0; simp only [List.mem_singleton] at hc0; subst hc0; decide)
    (by intro c0 hc0; simp only [List.mem_singleton] at hc0; subst hc0; decide)
  rw [hva, hvb, hvc, hvd, hve, hvf, hvg, hvh] at hbuild
  exact hbuild

/-- Claim C10: the timecode pattern accepts any two-digit frame value 00–99
(all eight fields are extracted unchecked), and out-of-convention frames
are processed rather than rejected: start frames 23–99 take the top-band
behaviour (`totalSeconds + 1`, three-space spacer, no `半`), and end frames
10–99 get no display-second decrement in the end-time suffix. -/
theorem claim_C10 :
    (∀ a b c d e f g h : Nat, a < 100 → b < 100 → c < 100 → d < 100 →
      e < 100 → f < 100 → g < 100 → h < 100 →
      timeMatch (labelNormalize (mkFrameExact a b c d e f g h)) =
        some ⟨a, b, c, d, e, f, g, h⟩) ∧
    (∀ (blk : ParsedBlock) (mmColon : Bool), 23 ≤ blk.startFR → blk.startFR ≤ 99 →
      startTimeParts blk mmColon =
        (specStartRender ((blk.startMM % 60) * 60 + blk.startSS + 1) mmColon false,
         ['　', '　', '　'])) ∧
    (∀ blk : ParsedBlock, 10 ≤ blk.endFR → blk.endFR ≤ 99 →
      endSuffix blk =
        ' ' :: '(' :: '～' ::
          ((if blk.startHH != blk.endHH ||
                ((blk.startMM : Int) % 60) != ((blk.endMM : Int) % 60) then
              (pad2I ((blk.endMM : Int) % 60) ++ pad2I (blk.endSS : Int)).map toZenkakuNumChar
            else (pad2I (blk.endSS : Int)).map toZenkakuNumChar) ++ [')'])) := by
  refine ⟨fun a b c d e f g h ha hb hc hd he hf hg hh =>
    timeMatch_mkFrameExact a b c d e f g h ha hb hc hd he hf hg hh, ?_, ?_⟩
  · intro blk mmColon h1 _
    unfold startTimeParts
    rw [if_neg (by simp; omega), if_neg (by simp; omega)]
    dsimp only
    rw [finishStart_eq_spec]
  · intro blk h1 _
    unfold endSuffix
    have hfr : ¬ (blk.endFR ≤ 9) := by omega
    simp only [hfr, if_false]
    have hneg : ¬ ((blk.endSS : Int) < 0) := by omega
    simp only [hneg, if_false, if_neg hneg]
    simp

/-- Witness for C10 at out-of-convention frame values. -/
theorem claim_C10_witness :
    timeMatch (labelNormalize (mkFrameExact 0 0 1 45 0 0 3 99)) =
      some ⟨0, 0, 1, 45, 0, 0, 3, 99⟩ :=
  claim_C10.1 0 0 1 45 0 0 3 99 (by decide) (by decide) (by decide) (by decide)
    (by decide) (by decide) (by decide) (by decide)

theorem digit_not_space {c : Char} (h : isPyDigit c = true) : isPySpace c = false := by
  simp only [isPyDigit, Bool.or_eq_true, Bool.and_eq_true, decide_eq_true_eq] at h
  simp only [isPySpace, Bool.or_eq_true, Bool.and_eq_true, decide_eq_true_eq,
    Bool.or_eq_false_iff, Bool.and_eq_false_iff, decide_eq_false_iff_not, not_le]
  omega

theorem normChar_space {c : Char} (h : isPySpace c = true) : normChar c = c := by
  have hkeys : ∀ p ∈ toHankakuTimePairs, isPySpace p.1 = false := by decide
  have hfind : toHankakuTimePairs.find? (fun p => p.1 = c) = none := by
    rw [List.find?_eq_none]
    intro p hp
    simp only [decide_eq_true_eq]
    intro he
    have hx := hkeys p hp
    rw [he, h] at hx
    cases hx
  have htilde : c ≠ '~' := by
    apply char_ne_of_toNat_ne
    simp only [isPySpace, Bool.or_eq_true, Bool.and_eq_true, decide_eq_true_eq] at h
    show c.toNat ≠ 126
    omega
  unfold normChar toHankakuTimeChar applyTable tildeToDash
  rw [hfind]
  simp [htilde]

theorem pyStrip_of_ends {l : List Char}
    (hh : ∀ v, l.head? = some v → isPySpace v = false)
    (hl : ∀ v, l.getLast? = some v → isPySpace v = false) : pyStrip l = l := by
  unfold pyStrip
  have h1 : l.dropWhile isPySpace = l := by
    cases l with
    | nil => rfl
    | cons c cs =>
      rw [List.dropWhile_cons]
      simp [hh c rfl]
  rw [h1]
  exact stripTrail_eq_self hl

/-- The scanner accepts every frame-exact semicolon-form line. -/
theorem scannerMatches_mkFrameExact (a b c d e f g h : Nat)
    (ha : a < 100) (hb : b < 100) (hc : c < 100) (hd : d < 100)
    (he : e < 100) (hf : f < 100) (hg : g < 100) (hh : h < 100) :
    scannerMatches (mkFrameExact a b c d e f g h) = true := by
  obtain ⟨xa, ya, hpa, hdxa, hdya, -⟩ := pad2_two a ha
  obtain ⟨xb, yb, hpb, -, -, -⟩ := pad2_two b hb
  obtain ⟨xc, yc, hpc, -, -, -⟩ := pad2_two c hc
  obtain ⟨xd, yd, hpd, -, -, -⟩ := pad2_two d hd
  obtain ⟨xe, ye, hpe, -, -, -⟩ := pad2_two e he
  obtain ⟨xf, yf, hpf, -, -, -⟩ := pad2_two f hf
  obtain ⟨xg, yg, hpg, -, -, -⟩ := pad2_two g hg
  obtain ⟨xh, yh, hph, -, hdyh, -⟩ := pad2_two h hh
  have hstrip : pyStrip (mkFrameExact a b c d e f g h) = mkFrameExact a b c d e f g h := by
    apply pyStrip_of_ends
    · intro v hv
      unfold mkFrameExact at hv
      rw [hpa] at hv
      simp only [List.cons_append, List.head?_cons, Option.some_inj] at hv
      subst hv
      exact digit_not_space hdxa
    · intro v hv
      unfold mkFrameExact at hv
      rw [hpa, hpb, hpc, hpd, hpe, hpf, hpg, hph] at hv
      simp only [List.cons_append, List.nil_append, List.append_nil,
        List.getLast?_cons_cons, List.getLast?_singleton, Option.some_inj] at hv
      subst hv
      exact digit_not_space hdyh
  unfold scannerMatches
  rw [scannerNormalize_eq, hstrip,
    timeMatch_mkFrameExact a b c d e f g h ha hb hc hd he hf hg hh]
  rfl

theorem widthDigit_facts : ∀ (fw : Bool), ∀ k < 10, isPyDigit (widthDigit fw k) = true ∧
    isPySpace (widthDigit fw k) = false ∧ normChar (widthDigit fw k) = widthDigit false k := by
  decide

theorem getLast?_cons_or (c : Char) (X : List Char) :
    (c :: X).getLast? = X.getLast?.or (some c) := by
  rw [show c :: X = [c] ++ X from rfl, List.getLast?_append]
  rfl

theorem sep_facts {sep : Char} (hsep : sep = '~' ∨ sep = '-' ∨ sep = '〜') :
    isPyDigit sep = false ∧ isPySpace sep = false ∧ sep ≠ ':' ∧ sep ≠ '.' ∧
      normChar sep = '-' := by
  rcases hsep with h | h | h <;> subst h <;> refine ⟨by decide, by decide, by decide, by decide, by decide⟩

set_option maxHeartbeats 2000000 in
/-- The scanner accepts every seconds-only line with half-width colons:
frame synthesis turns both `HH:MM:SS` triples into `HH:MM:SS.00`, the
width/dash normalization maps the digits and the separator, and the
resulting line matches the dual-timecode pattern. -/
theorem scannerMatches_mkSecondsOnly (fw : Bool) (a b c d e f : Nat)
    (w1 w2 : List Char) (sep : Char)
    (ha : a < 100) (hb : b < 100) (hc : c < 100) (hd : d < 100)
    (he : e < 100) (hf : f < 100)
    (hw1 : ∀ ch ∈ w1, isPySpace ch = true) (hw2 : ∀ ch ∈ w2, isPySpace ch = true)
    (hsep : sep = '~' ∨ sep = '-' ∨ sep = '〜') :
    scannerMatches (mkSecondsOnly fw a b c d e f w1 w2 sep) = true := by
  obtain ⟨dg1, sp1, nm1⟩ := widthDigit_facts fw (a / 10) (by omega)
  obtain ⟨dg2, sp2, nm2⟩ := widthDigit_facts fw (a % 10) (by omega)
  obtain ⟨dg3, sp3, nm3⟩ := widthDigit_facts fw (b / 10) (by omega)
  obtain ⟨dg4, sp4, nm4⟩ := widthDigit_facts fw (b % 10) (by omega)
  obtain ⟨dg5, sp5, nm5⟩ := widthDigit_facts fw (c / 10) (by omega)
  obtain ⟨dg6, sp6, nm6⟩ := widthDigit_facts fw (c % 10) (by omega)
  obtain ⟨dg7, sp7, nm7⟩ := widthDigit_facts fw (d / 10) (by omega)
  obtain ⟨dg8, sp8, nm8⟩ := widthDigit_facts fw (d % 10) (by omega)
  obtain ⟨dg9, sp9, nm9⟩ := widthDigit_facts fw (e / 10) (by omega)
  obtain ⟨dg10, sp10, nm10⟩ := widthDigit_facts fw (e % 10) (by omega)
  obtain ⟨dg11, sp11, nm11⟩ := widthDigit_facts fw (f / 10) (by omega)
  obtain ⟨dg12, sp12, nm12⟩ := widthDigit_facts fw (f % 10) (by omega)
  obtain ⟨sdg, ssp, scol, sdot, snm⟩ := sep_facts hsep
  have hshape : mkSecondsOnly fw a b c d e f w1 w2 sep =
      widthDigit fw (a / 10) :: widthDigit fw (a % 10) :: ':' ::
      widthDigit fw (b / 10) :: widthDigit fw (b % 10) :: ':' ::
      widthDigit fw (c / 10) :: widthDigit fw (c % 10) ::
        (w1 ++ sep :: (w2 ++ (widthDigit fw (d / 10) :: widthDigit fw (d % 10) :: ':' ::
          widthDigit fw (e / 10) :: widthDigit fw (e % 10) :: ':' ::
          widthDigit fw (f / 10) :: widthDigit fw (f % 10) :: []))) := by
    unfold mkSecondsOnly mkHMS widthPad2
    simp [List.cons_append, List.append_assoc]
  rw [hshape]
  have hT2pos : frameSub (widthDigit fw (d / 10) :: widthDigit fw (d % 10) :: ':' ::
      widthDigit fw (e / 10) :: widthDigit fw (e % 10) :: ':' ::
      widthDigit fw (f / 10) :: widthDigit fw (f % 10) :: []) =
      widthDigit fw (d / 10) :: widthDigit fw (d % 10) :: ':' ::
      widthDigit fw (e / 10) :: widthDigit fw (e % 10) :: ':' ::
      widthDigit fw (f / 10) :: widthDigit fw (f % 10) :: '.' :: '0' :: '0' :: [] := by
    rw [frameSub_cons_pos (by
      simp [isHMS, digitAt, colonAt, lookFrame, dg7, dg8, dg9, dg10, dg11, dg12])]
    simp [frameSub_nil]
  have hsepstep : frameSub (sep :: (w2 ++ (widthDigit fw (d / 10) :: widthDigit fw (d % 10) :: ':' ::
      widthDigit fw (e / 10) :: widthDigit fw (e % 10) :: ':' ::
      widthDigit fw (f / 10) :: widthDigit fw (f % 10) :: []))) =
      sep :: (w2 ++ (widthDigit fw (d / 10) :: widthDigit fw (d % 10) :: ':' ::
      widthDigit fw (e / 10) :: widthDigit fw (e % 10) :: ':' ::
      widthDigit fw (f / 10) :: widthDigit fw (f % 10) :: '.' :: '0' :: '0' :: [])) := by
    rw [frameSub_cons_neg (by simp [isHMS_cons_not_digit sdg])]
    rw [frameSub_space_append hw2, hT2pos]
  have hlook : lookFrame ((w1 ++ sep :: (w2 ++ (widthDigit fw (d / 10) ::
      widthDigit fw (d % 10) :: ':' :: widthDigit fw (e / 10) :: widthDigit fw (e % 10) :: ':' ::
      widthDigit fw (f / 10) :: widthDigit fw (f % 10) :: [])))) = false := by
    cases w1 with
    | nil =>
      simp [lookFrame, Option.some_inj, scol, sdot]
    | cons c0 w1' =>
      have hc0 := hw1 c0 (List.mem_cons_self c0 w1')
      simp [lookFrame, Option.some_inj, space_ne_colon hc0, space_ne_dot hc0]
  have hfs : frameSub (widthDigit fw (a / 10) :: widthDigit fw (a % 10) :: ':' ::
      widthDigit fw (b / 10) :: widthDigit fw (b % 10) :: ':' ::
      widthDigit fw (c / 10) :: widthDigit fw (c % 10) ::
        (w1 ++ sep :: (w2 ++ (widthDigit fw (d / 10) :: widthDigit fw (d % 10) :: ':' ::
          widthDigit fw (e / 10) :: widthDigit fw (e % 10) :: ':' ::
          widthDigit fw (f / 10) :: widthDigit fw (f % 10) :: [])))) =
      widthDigit fw (a / 10) :: widthDigit fw (a % 10) :: ':' ::
      widthDigit fw (b / 10) :: widthDigit fw (b % 10) :: ':' ::
      widthDigit fw (c / 10) :: widthDigit fw (c % 10) :: '.' :: '0' :: '0' ::
        (w1 ++ sep :: (w2 ++ (widthDigit fw (d / 10) :: widthDigit fw (d % 10) :: ':' ::
          widthDigit fw (e / 10) :: widthDigit fw (e % 10) :: ':' ::
          widthDigit fw (f / 10) :: widthDigit fw (f % 10) :: '.' :: '0' :: '0' :: []))) := by
    rw [frameSub_cons_pos (by
      simp only [List.drop_succ_cons, List.drop_zero]
      rw [hlook]
      simp [isHMS, digitAt, colonAt, dg1, dg2, dg3, dg4, dg5, dg6])]
    simp only [List.take_succ_cons, List.take_zero, List.drop_succ_cons, List.drop_zero]
    rw [frameSub_space_append hw1, hsepstep]
    simp
  have hstrip : pyStrip (widthDigit fw (a / 10) :: widthDigit fw (a % 10) :: ':' ::
      widthDigit fw (b / 10) :: widthDigit fw (b % 10) :: ':' ::
      widthDigit fw (c / 10) :: widthDigit fw (c % 10) ::
        (w1 ++ sep :: (w2 ++ (widthDigit fw (d / 10) :: widthDigit fw (d % 10) :: ':' ::
          widthDigit fw (e / 10) :: widthDigit fw (e % 10) :: ':' ::
          widthDigit fw (f / 10) :: widthDigit fw (f % 10) :: [])))) = widthDigit fw (a / 10) :: widthDigit fw (a % 10) :: ':' ::
      widthDigit fw (b / 10) :: widthDigit fw (b % 10) :: ':' ::
      widthDigit fw (c / 10) :: widthDigit fw (c % 10) ::
        (w1 ++ sep :: (w2 ++ (widthDigit fw (d / 10) :: widthDigit fw (d % 10) :: ':' ::
          widthDigit fw (e / 10) :: widthDigit fw (e % 10) :: ':' ::
          widthDigit fw (f / 10) :: widthDigit fw (f % 10) :: []))) := by
    apply pyStrip_of_ends
    · intro v hv
      simp only [List.head?_cons, Option.some_inj] at hv
      subst hv
      exact sp1
    · intro v hv
      have hsome_or : ∀ (x : Char) (o : Option Char), (some x).or o = some x := fun _ _ => rfl
      have hnone_or : ∀ o : Option Char, (none : Option Char).or o = o := fun _ => rfl
      simp only [getLast?_cons_or, List.getLast?_append, List.getLast?_nil,
        hnone_or, hsome_or, Option.some_inj] at hv
      subst hv
      exact sp12
  unfold scannerMatches
  rw [scannerNormalize_eq, hstrip]
  unfold labelNormalize
  rw [hfs]
  have hmw1 : w1.map normChar = w1 := by
    conv_rhs => rw [← List.map_id w1]
    exact List.map_congr_left (fun x hx => normChar_space (hw1 x hx))
  have hmw2 : w2.map normChar = w2 := by
    conv_rhs => rw [← List.map_id w2]
    exact List.map_congr_left (fun x hx => normChar_space (hw2 x hx))
  obtain ⟨fg1, -, -⟩ := widthDigit_facts false (a / 10) (by omega)
  obtain ⟨fg2, -, -⟩ := widthDigit_facts false (a % 10) (by omega)
  obtain ⟨fg3, -, -⟩ := widthDigit_facts false (b / 10) (by omega)
  obtain ⟨fg4, -, -⟩ := widthDigit_facts false (b % 10) (by omega)
  obtain ⟨fg5, -, -⟩ := widthDigit_facts false (c / 10) (by omega)
  obtain ⟨fg6, -, -⟩ := widthDigit_facts false (c % 10) (by omega)
  obtain ⟨fg7, -, -⟩ := widthDigit_facts false (d / 10) (by omega)
  obtain ⟨fg8, -, -⟩ := widthDigit_facts false (d % 10) (by omega)
  obtain ⟨fg9, -, -⟩ := widthDigit_facts false (e / 10) (by omega)
  obtain ⟨fg10, -, -⟩ := widthDigit_facts false (e % 10) (by omega)
  obtain ⟨fg11, -, -⟩ := widthDigit_facts false (f / 10) (by omega)
  obtain ⟨fg12, -, -⟩ := widthDigit_facts false (f % 10) (by omega)
  have hcol : normChar ':' = ':' := by decide
  have hdot : normChar '.' = '.' := by decide
  have hzero : normChar '0' = '0' := by decide
  simp only [List.map_cons, List.map_append, List.map_nil, hmw1, hmw2, nm1, nm2, nm3, nm4,
    nm5, nm6, nm7, nm8, nm9, nm10, nm11, nm12, snm, hcol, hdot, hzero]
  rw [timeMatch_build (widthDigit false (a / 10)) (widthDigit false (a % 10))
    (widthDigit false (b / 10)) (widthDigit false (b % 10))
    (widthDigit false (c / 10)) (widthDigit false (c % 10)) '0' '0'
    (widthDigit false (d / 10)) (widthDigit false (d % 10))
    (widthDigit false (e / 10)) (widthDigit false (e % 10))
    (widthDigit false (f / 10)) (widthDigit false (f % 10)) '0' '0'
    ':' ':' '.' ':' ':' '.' w1 w2 []
    (by
      intro c0 hc0
      simp only [List.mem_cons, List.not_mem_nil, or_false] at hc0
      rcases hc0 with hm | hm | hm | hm | hm | hm | hm | hm | hm | hm | hm | hm | hm | hm | hm | hm
      all_goals subst hm
      all_goals first | assumption | decide)
    (by decide) (by decide) (by decide) (by decide) (by decide) (by decide) hw1 hw2]
  rfl

theorem acceptedForm_scannerMatches {l : List Char} (h : acceptedForm l) :
    scannerMatches l = true := by
  rcases h with ⟨a, b, c, d, e, f, g, h2, ha, hb, hc, hd, he, hf, hg, hh, rfl⟩ |
    ⟨fw, a, b, c, d, e, f, w1, w2, sep, ha, hb, hc, hd, he, hf, hw1, hw2, hsep, rfl⟩
  · exact scannerMatches_mkFrameExact a b c d e f g h2 ha hb hc hd he hf hg hh
  · exact scannerMatches_mkSecondsOnly fw a b c d e f w1 w2 sep ha hb hc hd he hf hw1 hw2 hsep

/-- Claim C1 (counterexample): two of the claim's "accepted" textual forms
are rejected by the code — the frame-exact colon form `HH:MM:SS:FF` (the
pattern requires `;` or `.` before the frame field), and the seconds-only
form written with full-width colons (frame synthesis needs half-width
colons, so no `.00` is inserted and the pattern fails).  Both inputs make
`convert` return the NoTimecodeFound error. -/
theorem claim_C1_counterexample :
    convertNarrationScript "00:00:01:15 - 00:00:03:20" true false = .error noTimecodeMsg ∧
    convertNarrationScript "００：００：１５　〜　００：００：１８" true false =
      .error noTimecodeMsg := by
  exact ⟨by rfl, by rfl⟩

/-- Claim C1 (amended): for every input text containing a line in either
textual form the code accepts — frame-exact `HH;MM;SS;FF - HH;MM;SS;FF`, or
seconds-only `HH:MM:SS` pairs with half-width colons, digits in half- or
full-width, and a `~`/`-`/`〜` separator — the scanner finds a matching
line and `convert` does not return the NoTimecodeFound error. -/
theorem claim_C1_amended (text : String) (nForce mmColon : Bool)
    (h : ∃ l ∈ splitLines (pyStrip text.data), acceptedForm l) :
    (splitLines (pyStrip text.data)).findIdx? scannerMatches ≠ none ∧
    convertNarrationScript text nForce mmColon ≠ .error noTimecodeMsg := by
  obtain ⟨l, hl, hacc⟩ := h
  have hsm : scannerMatches l = true := acceptedForm_scannerMatches hacc
  have hne : (splitLines (pyStrip text.data)).findIdx? scannerMatches ≠ none := by
    intro h0
    have hfl := findIdx?_none_prop _ 0 h0 l hl
    rw [hsm] at hfl
    cases hfl
  refine ⟨hne, ?_⟩
  cases hidx : (splitLines (pyStrip text.data)).findIdx? scannerMatches with
  | none => exact absurd hidx hne
  | some n =>
    simp only [convertNarrationScript, hidx]
    intro hcontra
    cases hcontra

/-- Witness for C1's amended acceptance at a concrete input holding a
full-width seconds-only line. -/
theorem claim_C1_amended_witness :
    (splitLines (pyStrip "メモ\n００:００:１５　〜　００:００:１８\nN ああああ".data)).findIdx?
        scannerMatches ≠ none ∧
    convertNarrationScript "メモ\n００:００:１５　〜　００:００:１８\nN ああああ" true false ≠
      .error noTimecodeMsg :=
  claim_C1_amended "メモ\n００:００:１５　〜　００:００:１８\nN ああああ" true false
    ⟨mkSecondsOnly true 0 0 15 0 0 18 ['　'] ['　'] '〜',
     by decide,
     Or.inr ⟨true, 0, 0, 15, 0, 0, 18, ['　'], ['　'], '〜',
       by decide, by decide, by decide, by decide, by decide, by decide,
       by decide, by decide, Or.inr (Or.inr rfl), rfl⟩⟩

end CtoN
